import Mathlib

/-!
Verification development for the catalog schema-inference / fuzzy-retrieval
engine of this repository (backend: `sku_validator.py`, `pricing_processor.py`,
`advanced_document_processor.py`, `intelligent_retrieval.py`, `file_cache.py`).

Python strings are shallowly embedded as lists of Unicode code points
(`Str := List Nat`); Python floats are embedded as exact rationals (`PyF`,
with distinguished non-finite values), so arithmetic is the idealised real
arithmetic the heuristics intend.  Each Lean definition mirrors one Python
function of the source; doc comments name the function it embeds.
-/

/-- A Python string, as its list of Unicode code points. -/
abbrev Str := List Nat

/-- Code points of a Lean string literal (used only to write concrete inputs). -/
def str2c (s : String) : Str := s.data.map Char.toNat

/-- Python `str.isspace` characters that occur in this code base
(the `\s` class: space, tab, LF, VT, FF, CR). -/
def isSpc (c : Nat) : Bool := c = 32 || c = 9 || c = 10 || c = 13 || c = 11 || c = 12

/-- ASCII uppercase letter. -/
def isUpA (c : Nat) : Bool := 65 ≤ c && c ≤ 90

/-- ASCII lowercase letter. -/
def isLoA (c : Nat) : Bool := 97 ≤ c && c ≤ 122

/-- ASCII letter (the regexes here run on ASCII catalog data). -/
def isLet (c : Nat) : Bool := isUpA c || isLoA c

/-- ASCII digit, the regex class `\d` on this data. -/
def isDig (c : Nat) : Bool := 48 ≤ c && c ≤ 57

/-- Regex word character `\w`: letter, digit or underscore. -/
def isWordC (c : Nat) : Bool := isLet c || isDig c || c = 95

/-- Regex class `[A-Z0-9]` under `re.IGNORECASE`: letter or digit. -/
def isAlnum (c : Nat) : Bool := isLet c || isDig c

/-- `str.upper` on one character (ASCII case mapping). -/
def upChar (c : Nat) : Nat := if 97 ≤ c ∧ c ≤ 122 then c - 32 else c

/-- `str.lower` on one character (ASCII case mapping). -/
def loChar (c : Nat) : Nat := if 65 ≤ c ∧ c ≤ 90 then c + 32 else c

/-- Python `str.upper`. -/
def pyUpper (s : Str) : Str := s.map upChar

/-- Python `str.lower`. -/
def pyLower (s : Str) : Str := s.map loChar

/-- Python `str.strip` (drop leading and trailing whitespace). -/
def pyStrip (s : Str) : Str :=
  ((s.dropWhile isSpc).reverse.dropWhile isSpc).reverse

/-- `pat` is a prefix of `s` (Python `str.startswith`). -/
def isPre : Str → Str → Bool
  | [], _ => true
  | _ :: _, [] => false
  | p :: ps, c :: cs => p = c && isPre ps cs

/-- `pat` occurs somewhere in `s` (Python `pat in s`). -/
def isSub (pat : Str) : Str → Bool
  | [] => isPre pat []
  | c :: cs => isPre pat (c :: cs) || isSub pat cs

/-- Python `str.split()` (split on whitespace runs, no empty words);
fuelled so that the kernel can evaluate it. -/
def pySplitF : Nat → Str → List Str
  | 0, _ => []
  | _ + 1, [] => []
  | n + 1, c :: rest =>
    if isSpc c then pySplitF n rest
    else (c :: rest.takeWhile (fun d => !isSpc d)) ::
      pySplitF n (rest.dropWhile (fun d => !isSpc d))

/-- Python `str.split()`. -/
def pySplit (s : Str) : List Str := pySplitF s.length s

/-- Python `' '.join ws`. -/
def joinSpace : List Str → Str
  | [] => []
  | [w] => w
  | w :: ws => w ++ 32 :: joinSpace ws

/-- Whitespace collapsing `' '.join(s.split())` as used by `normalize_sku`. -/
def collapse (s : Str) : Str := joinSpace (pySplit s)

/-- Python `str.replace pat rep` (leftmost, non-overlapping), fuelled. -/
def pyReplaceF (pat rep : Str) : Nat → Str → Str
  | 0, s => s
  | _ + 1, [] => []
  | n + 1, c :: rest =>
    if pat ≠ [] ∧ isPre pat (c :: rest) then
      rep ++ pyReplaceF pat rep n ((c :: rest).drop pat.length)
    else
      c :: pyReplaceF pat rep n rest

/-- Python `str.replace pat rep` for a non-empty pattern. -/
def pyReplace (pat rep s : Str) : Str := pyReplaceF pat rep s.length s

/-- A Python float value: finite (as an exact rational) or one of the
non-finite values that `float(...)` can produce. -/
inductive PyF where
  | fin (q : ℚ)
  | inf
  | ninf
  | nan
deriving DecidableEq, Repr

/-- Truthiness of a float (`if price:` …): only 0.0 is falsy. -/
def PyF.truthy : PyF → Bool
  | .fin q => q ≠ 0
  | _ => true

/-- `lo <= p <= hi` chained comparison on a Python float (false on NaN,
false on infinities because one side always fails). -/
def PyF.inRange (p : PyF) (lo hi : ℚ) : Bool :=
  match p with
  | .fin q => lo ≤ q && q ≤ hi
  | _ => false

/-- Natural-number value of a digit string. -/
def digitsToNat (ds : Str) : Nat := ds.foldl (fun a c => a * 10 + (c - 48)) 0

/-- Rational value of an unsigned decimal `intPart[.fracPart]`. -/
def decToRat (ip fp : Str) : ℚ :=
  (digitsToNat ip : ℚ) + (digitsToNat fp : ℚ) / ((10 : ℚ) ^ fp.length)

/-- Grammar step of Python `float(str)` after sign: digits, optional point and
fraction, optional exponent; also accepts `.digits`.  Returns the value. -/
def pyFloatBody (s : Str) : Option ℚ :=
  let ip := s.takeWhile isDig
  let r1 := s.drop ip.length
  let (fp, r2) :=
    match r1 with
    | 46 :: t => (t.takeWhile isDig, t.drop (t.takeWhile isDig).length)
    | _ => ([], r1)
  if ip = [] ∧ fp = [] then none else
  match r2 with
  | [] => some (decToRat ip fp)
  | e :: t =>
    if e = 101 ∨ e = 69 then
      let (esign, t2) : ℚ × Str :=
        match t with
        | 43 :: u => (1, u)
        | 45 :: u => (-1, u)
        | _ => (1, t)
      let ed := t2.takeWhile isDig
      if ed = [] ∨ t2.drop ed.length ≠ [] then none
      else some (decToRat ip fp *
        (if esign = 1 then (10 : ℚ) ^ digitsToNat ed else ((10 : ℚ) ^ digitsToNat ed)⁻¹))
    else none

/-- Python `float(str)`: strip whitespace, optional sign, then either a
decimal/scientific literal or (case-insensitively) `inf`/`infinity`/`nan`.
Returns `none` when `float` would raise `ValueError`. -/
def pyFloat (s : Str) : Option PyF :=
  let t := pyStrip s
  let (sgn, u) : Bool × Str :=
    match t with
    | 43 :: r => (true, r)
    | 45 :: r => (false, r)
    | _ => (true, t)
  let ul := pyLower u
  if ul = str2c "inf" ∨ ul = str2c "infinity" then
    some (if sgn then PyF.inf else PyF.ninf)
  else if ul = str2c "nan" then some PyF.nan
  else
    match pyFloatBody u with
    | some q => some (.fin (if sgn then q else -q))
    | none => none

/-! ## `sku_validator.py` — `SKUValidator` -/

/-- Pattern constant `" L "`. -/
def lSpc : Str := [32, 76, 32]

/-- Pattern constant `" R "`. -/
def rSpc : Str := [32, 82, 32]

/-- Replacement constant `" L/R "`. -/
def lrRep : Str := [32, 76, 47, 82, 32]

/-- Pattern constant `"L/R/R"`. -/
def lrrPat : Str := [76, 47, 82, 47, 82]

/-- Replacement constant `"L/R"`. -/
def lrShort : Str := [76, 47, 82]

/-- `SKUValidator.normalize_sku`: uppercase, collapse whitespace runs via
`' '.join(s.split())`, then the three `str.replace` passes standardising the
L/R markers.  (The Python guard `if not sku: return ""` is the same function
on the empty string.) -/
def normalize_sku (s : Str) : Str :=
  pyReplace lrrPat lrShort
    (pyReplace rSpc lrRep
      (pyReplace lSpc lrRep
        (collapse (pyUpper s))))

/-- End-of-match condition for the optional suffix group `(\s+.*)?$` of the
`SKUValidator.PATTERNS` regexes: the remainder after the whitespace run may
contain a newline only as its final character (`.` does not cross newlines and
`$` also matches just before a trailing newline). -/
def nlOnlyLast (s : Str) : Bool := !(s.dropLast.contains 10)

/-- Acceptance of `(\s+.*)?$` on the rest of the string: either nothing is
left, or at least one whitespace character follows and the remainder after the
(maximal) whitespace run contains no interior newline.  Taking the maximal
whitespace run is complete: shortening `\s+` only moves whitespace (possibly
newlines) into the `.*` part. -/
def optTailOK (rest : Str) : Bool :=
  match rest with
  | [] => true
  | _ =>
    let w := rest.takeWhile isSpc
    decide (1 ≤ w.length) && nlOnlyLast (rest.drop w.length)

/-- Acceptance of `\d{lo,hi}(\s+.*)?$` on `t`: since every shorter take of the
greedy digit quantifier leaves a digit in front of the suffix group (which it
cannot match), the full maximal digit run must have length in `[lo, hi]`. -/
def numThenTail (t : Str) (lo hi : Nat) : Bool :=
  let d := (t.takeWhile isDig).length
  decide (lo ≤ d ∧ d ≤ hi) && optTailOK (t.drop d)

/-- `PATTERNS["base"] = ^B\d{2,3}(\s+.*)?$`. -/
def patBase : Str → Bool
  | 66 :: t => numThenTail t 2 3
  | _ => false

/-- `PATTERNS["drawer_base"] = ^DB\d{2,3}(\s+.*)?$`. -/
def patDrawerBase : Str → Bool
  | 68 :: 66 :: t => numThenTail t 2 3
  | _ => false

/-- `PATTERNS["sink_base"] = ^SB\d{2,3}(\s+.*)?$`. -/
def patSinkBase : Str → Bool
  | 83 :: 66 :: t => numThenTail t 2 3
  | _ => false

/-- `PATTERNS["wall"] = ^W\d{3,4}(\s+.*)?$`. -/
def patWall : Str → Bool
  | 87 :: t => numThenTail t 3 4
  | _ => false

/-- Tail of `PATTERNS["tall"]` after the two-letter prefix:
`\d{2,4}(x\d{2,3})?(\s+.*)?$`.  The `x` is a lowercase literal (the pattern is
compiled without `re.IGNORECASE`), so on the upper-cased input the optional
group can only match a literal `x` = 120. -/
def tallTail (t : Str) : Bool :=
  let d := (t.takeWhile isDig).length
  let t2 := t.drop d
  let optX : Bool :=
    match t2 with
    | 120 :: u => numThenTail u 2 3 || optTailOK t2
    | _ => optTailOK t2
  decide (2 ≤ d ∧ d ≤ 4) && optX

/-- `PATTERNS["tall"] = ^(UT|PT|TC)\d{2,4}(x\d{2,3})?(\s+.*)?$`. -/
def patTall : Str → Bool
  | 85 :: 84 :: t => tallTail t
  | 80 :: 84 :: t => tallTail t
  | 84 :: 67 :: t => tallTail t
  | _ => false

/-- `PATTERNS["corner_base"] = ^(CBS|BSS|ACB)\d{2,3}(\s+.*)?$`. -/
def patCornerBase : Str → Bool
  | 67 :: 66 :: 83 :: t => numThenTail t 2 3
  | 66 :: 83 :: 83 :: t => numThenTail t 2 3
  | 65 :: 67 :: 66 :: t => numThenTail t 2 3
  | _ => false

/-- Tail of `PATTERNS["corner_wall"]` after the prefix:
`\d{2,4}(\s+L/R)?(\s+.*)?$`. -/
def cwTail (t : Str) : Bool :=
  let d := (t.takeWhile isDig).length
  let r := t.drop d
  let w := r.takeWhile isSpc
  let lrOpt : Bool :=
    decide (1 ≤ w.length) && isPre lrShort (r.drop w.length) &&
      optTailOK (r.drop (w.length + 3))
  decide (2 ≤ d ∧ d ≤ 4) && (optTailOK r || lrOpt)

/-- `PATTERNS["corner_wall"] = ^(CW|WSC|WBC|WTC)\d{2,4}(\s+L/R)?(\s+.*)?$`. -/
def patCornerWall : Str → Bool
  | 67 :: 87 :: t => cwTail t
  | 87 :: 83 :: 67 :: t => cwTail t
  | 87 :: 66 :: 67 :: t => cwTail t
  | 87 :: 84 :: 67 :: t => cwTail t
  | _ => false

/-- `PATTERNS["vanity"] = ^V(SB|DB|SF)\d{2}(\s+.*)?$`. -/
def patVanity : Str → Bool
  | 86 :: 83 :: 66 :: t => numThenTail t 2 2
  | 86 :: 68 :: 66 :: t => numThenTail t 2 2
  | 86 :: 83 :: 70 :: t => numThenTail t 2 2
  | _ => false

/-- `PATTERNS["specialty"] = ^(OV[DS]|DR|PB|RR|TEP|WEP)\d{2,4}(\s+.*)?$`. -/
def patSpecialty : Str → Bool
  | 79 :: 86 :: 68 :: t => numThenTail t 2 4
  | 79 :: 86 :: 83 :: t => numThenTail t 2 4
  | 68 :: 82 :: t => numThenTail t 2 4
  | 80 :: 66 :: t => numThenTail t 2 4
  | 82 :: 82 :: t => numThenTail t 2 4
  | 84 :: 69 :: 80 :: t => numThenTail t 2 4
  | 87 :: 69 :: 80 :: t => numThenTail t 2 4
  | _ => false

/-- `SKUValidator.is_valid_sku`: strip and uppercase, then try every cabinet
pattern (an empty input fails all patterns, matching the early `return False`). -/
def is_valid_sku (s : Str) : Bool :=
  let u := pyUpper (pyStrip s)
  patBase u || patDrawerBase u || patSinkBase u || patWall u || patTall u ||
    patCornerBase u || patCornerWall u || patVanity u || patSpecialty u

/-! ## The base-code regex `^([A-Z]{1,3}\d{2,})` of
`create_advanced_context` / `intelligent_retrieval.py` -/

/-- `re.match(r'^([A-Z]{1,3}\d{2,})', s)`, returning the captured group.
With the greedy quantifiers, a match exists iff the maximal leading run of
uppercase letters has length 1–3 and is followed by at least two digits
(any shorter take of either quantifier puts a letter where a digit is
required, or a digit where the group must end), and then the group is that
letter run followed by the maximal digit run. -/
def leadBase (s : Str) : Option Str :=
  let ls := s.takeWhile isUpA
  let t := s.drop ls.length
  let ds := t.takeWhile isDig
  if 1 ≤ ls.length ∧ ls.length ≤ 3 ∧ 2 ≤ ds.length then some (ls ++ ds) else none

/-- `re.match(r'^([A-Z]{1,3}\d{2,})(?:\s|[-]|$)', s)` (used to test whether a
code *is* its own base form): the same group, additionally followed by
whitespace, a hyphen, or the end of the string. -/
def leadBaseTerm (s : Str) : Option Str :=
  match leadBase s with
  | some b =>
    (match s.drop b.length with
     | [] => some b
     | c :: _ => if isSpc c ∨ c = 45 then some b else none)
  | none => none

/-! ## Regexes of `advanced_document_processor.py` -/

/-- A position ends a match of the cabinet-code regex: `\b(?![A-Z])` after a
word character holds iff the next character is a non-word character or the
string ends (a non-word character is never a letter, so the lookahead is
implied by the boundary). -/
def endOKw (t : Str) : Bool :=
  match t with
  | [] => true
  | c :: _ => !isWordC c

/-- Acceptance of `(?:[\s\-][A-Z0-9]+)*(?:\s+[A-Z0-9]+)?\b(?![A-Z])` (with
`re.IGNORECASE`) on the rest of the string after the letters+digits core.
Shortening a greedy `[A-Z0-9]+` run leaves an alphanumeric (word) character in
front of `\b`/`[\s\-]`/`\s`, which all fail on it, so each run is consumed
whole and the search is deterministic; the fuel bounds the number of
separator steps. -/
def skuTailF : Nat → Str → Bool
  | 0, t => endOKw t
  | n + 1, t =>
    let xStep : Bool :=
      match t with
      | c :: u =>
        if isSpc c ∨ c = 45 then
          let k := (u.takeWhile isAlnum).length
          decide (1 ≤ k) && skuTailF n (u.drop k)
        else false
      | [] => false
    let yStep : Bool :=
      match t with
      | c :: _ =>
        if isSpc c then
          let u2 := t.dropWhile isSpc
          let k := (u2.takeWhile isAlnum).length
          decide (1 ≤ k) && endOKw (u2.drop k)
        else false
      | [] => false
    endOKw t || xStep || yStep

/-- `sku_pattern.match(s)` of `AdvancedDocumentProcessor`:
`\b([A-Z]{1,3}\d{2,}(?:[\s\-][A-Z0-9]+)*(?:\s+[A-Z0-9]+)?)\b(?![A-Z])` with
`re.IGNORECASE`, anchored at the start by `re.match`.  A match exists iff the
maximal leading letter run has length 1–3 (a longer run leaves a letter where
a digit is required for every take of the quantifier), at least two digits
follow, and the tail group accepts the remainder. -/
def skuPatternMatch (s : Str) : Bool :=
  let ls := s.takeWhile isLet
  let t := s.drop ls.length
  let ds := t.takeWhile isDig
  decide (1 ≤ ls.length ∧ ls.length ≤ 3 ∧ 2 ≤ ds.length) &&
    skuTailF s.length (t.drop ds.length)

/-- The `(?:\.\d{2})?` part of the price regex: consumed only when a point is
followed by at least two digits, of which exactly two are taken. -/
def dotPart (s : Str) : Str :=
  match s with
  | 46 :: t => if 2 ≤ (t.takeWhile isDig).length then 46 :: t.take 2 else []
  | _ => []

/-- The `(?:,\d{3})*(?:\.\d{2})?` part of the price regex: greedily consume
`,ddd` groups (a comma must be followed by at least three digits, of which
exactly three are taken), then the optional decimal part. -/
def commaGroupsF : Nat → Str → Str
  | 0, s => dotPart s
  | n + 1, s =>
    match s with
    | 44 :: t =>
      if 3 ≤ (t.takeWhile isDig).length then 44 :: (t.take 3 ++ commaGroupsF n (t.drop 3))
      else dotPart s
    | _ => dotPart s

/-- Attempt of `price_pattern` at one position:
`\$?\s*(\d{1,3}(?:,\d{3})*(?:\.\d{2})?)\s*(?:dollars?|USD)?` — an optional
dollar sign, then whitespace, then the captured amount, which must start with
a digit; `\d{1,3}` greedily takes up to three digits and everything after it
is optional, so no backtracking can occur.  Returns `group(1)`. -/
def priceGroupAt (s : Str) : Option Str :=
  let s1 := match s with | 36 :: t => t | _ => s
  let s2 := s1.dropWhile isSpc
  let r := s2.takeWhile isDig
  if r.length = 0 then none
  else
    let k := min 3 r.length
    some (s2.take k ++ commaGroupsF s2.length (s2.drop k))

/-- `price_pattern.search(s)`: try the pattern at each position from the left
and return the first captured amount. -/
def priceSearchF : Nat → Str → Option Str
  | 0, _ => none
  | _ + 1, [] => none
  | n + 1, c :: rest =>
    match priceGroupAt (c :: rest) with
    | some g => some g
    | none => priceSearchF n rest

/-- `price_pattern.search(s).group(1)` (or `none` when there is no match:
the pattern matches somewhere iff the string contains a digit). -/
def priceSearch (s : Str) : Option Str := priceSearchF (s.length + 1) s

/-- `re.compile(r'\b[A-Z]\d{2,}\b', re.IGNORECASE).search(s) is not None`
(used by the CODE_LISTING intent score): some position holds a letter
preceded by no word character, followed by a maximal digit run of length ≥ 2
whose end is a word boundary. -/
def skuLooseSearch (s : Str) : Bool :=
  (List.range s.length).any (fun p =>
    (p = 0 ∨ !isWordC (s.getD (p - 1) 0)) &&
    isLet (s.getD p 0) &&
    (let t := (s.drop (p + 1)).takeWhile isDig
     decide (2 ≤ t.length) && endOKw (s.drop (p + 1 + t.length))))

/-- `re.search(r'\d+', s) is not None`: the string contains a digit. -/
def hasDigit (s : Str) : Bool := s.any isDig

/-! ## `advanced_document_processor.py` — grid model and
`AdvancedDocumentProcessor` -/

/-- An untyped spreadsheet cell as pandas hands it to the processor: missing
(`NaN`), a string, or a number.  A numeric cell carries its exact value and
its Python `str()` rendering (decimal float formatting is outside this
embedding, so the rendering travels with the value). -/
inductive Cell where
  | na
  | txt (s : Str)
  | num (q : ℚ) (render : Str)
deriving DecidableEq, Repr

/-- `pd.notna`. -/
def Cell.notna : Cell → Bool
  | .na => false
  | _ => true

/-- Python `str(cell)` (`str(nan) = "nan"`). -/
def cellStr : Cell → Str
  | .na => str2c "nan"
  | .txt s => s
  | .num _ r => r

/-- `cell` after `fillna("").astype(str)` (missing becomes the empty string). -/
def cellStrFill : Cell → Str
  | .na => []
  | .txt s => s
  | .num _ r => r

/-- A sheet grid, row-major; pandas grids are rectangular, so lookups pad
short rows with `NaN`. -/
abbrev Grid := List (List Cell)

/-- Number of columns of the rectangular pandas frame. -/
def ncols (df : Grid) : Nat := df.foldr (fun r a => max r.length a) 0

/-- `df.iloc[i, j]` (`NaN` outside the stored cells). -/
def cellAt (df : Grid) (i j : Nat) : Cell := (df.getD i []).getD j .na

/-- `df.iloc[i]` as the list of its `ncols df` cells. -/
def rowAt (df : Grid) (i : Nat) : List Cell :=
  (List.range (ncols df)).map (fun j => cellAt df i j)

/-- `[str(val).strip() for val in df.iloc[idx] if pd.notna(val)]`. -/
def rowValues (df : Grid) (i : Nat) : List Str :=
  ((rowAt df i).filter Cell.notna).map (fun c => pyStrip (cellStr c))

/-- `" ".join(row_values).lower()`. -/
def rowStrL (df : Grid) (i : Nat) : Str := pyLower (joinSpace (rowValues df i))

/-- `float(val_str.replace(",", "").replace("$", ""))` succeeds. -/
def floatish (v : Str) : Bool :=
  (pyFloat (pyReplace [36] [] (pyReplace [44] [] v))).isSome

/-- The header keyword list of `_detect_header_advanced`. -/
def headerKeywords : List Str :=
  [str2c "sku", str2c "code", str2c "item", str2c "part", str2c "catalog",
   str2c "product", str2c "elite", str2c "premium", str2c "prime",
   str2c "choice", str2c "rush", str2c "cf", str2c "aw", str2c "grade",
   str2c "arcdia", str2c "bel-air", str2c "alto", str2c "preston",
   str2c "receives", str2c "species", str2c "charges"]

/-- Material-name test of `_detect_header_advanced` strategy 3 on one
(already stripped) cell string: length ≥ 3, capitalised first character, not
all digits (`.upper()` does not change digit-ness). -/
def materialCond (v : Str) : Bool :=
  decide (3 ≤ v.length) && isUpA (v.headD 0) && !(v.all isDig)

/-- Keyword hits of `_detect_header_advanced` strategy 1 on row `i`. -/
def rowKwCount (df : Grid) (i : Nat) : Nat :=
  (headerKeywords.filter (fun k => isSub k (rowStrL df i))).length

/-- Count of non-empty cells of row `i` that fail the numeric parse
(strategy 2, `text_count`). -/
def rowTextCount (df : Grid) (i : Nat) : Nat :=
  ((rowValues df i).filter (fun v => !v.isEmpty && !floatish v)).length

/-- Count of non-empty cells of row `i` that pass the numeric parse
(strategy 2, `numeric_count`). -/
def rowNumCount (df : Grid) (i : Nat) : Nat :=
  ((rowValues df i).filter (fun v => !v.isEmpty && floatish v)).length

/-- Count of material-looking cells of row `i` (strategy 3). -/
def rowMatCount (df : Grid) (i : Nat) : Nat :=
  ((rowValues df i).filter materialCond).length

/-- Some cell of row `i` matches the cabinet-code shape (strategy 4). -/
def rowHasCodes (df : Grid) (i : Nat) : Bool :=
  (rowValues df i).any (fun v => skuPatternMatch (pyUpper v))

/-- Per-row header score of `_detect_header_advanced`: 0.3 per keyword
occurrence in the joined lower-case row text, +0.4 when text cells outnumber
numeric cells, +0.5 when at least five cells look like material names,
+0.3 when no cell matches the cabinet-code shape. -/
def rowScore (df : Grid) (i : Nat) : ℚ :=
  (rowKwCount df i : ℚ) * 0.3 +
    (if rowNumCount df i < rowTextCount df i then 0.4 else 0) +
    (if 5 ≤ rowMatCount df i then 0.5 else 0) +
    (if rowHasCodes df i then 0 else 0.3)

/-- The `best_score`/`best_row` accumulator loop (`if score > best_score`). -/
def bestRowAux (score : Nat → ℚ) : List Nat → ℚ × Option Nat → ℚ × Option Nat
  | [], acc => acc
  | i :: is, (bs, br) =>
    bestRowAux score is (if bs < score i then (score i, some i) else (bs, br))

/-- Fallback keywords scanned over rows 0–2 by `_detect_header_advanced`. -/
def fallbackKws : List Str :=
  [str2c "sku", str2c "code", str2c "rush", str2c "cf", str2c "aw",
   str2c "grade", str2c "price"]

/-- `AdvancedDocumentProcessor._detect_header_advanced` (default
`max_rows = 20`): score the first 20 rows, return the first row of maximal
score when one scored positive; otherwise the first of rows 0–2 containing a
fallback keyword; otherwise row 0.  Every path returns an index. -/
def detect_header_advanced (df : Grid) : Nat :=
  let n := min 20 df.length
  let res := bestRowAux (rowScore df) (List.range n) (0, none)
  if (0.3 : ℚ) ≤ res.1 ∨ res.2 ≠ none then res.2.getD 0
  else
    (((List.range 3).filter (fun r => r < df.length)).find? (fun r =>
      fallbackKws.any (fun k => isSub k (rowStrL df r)))).getD 0

/-- `df.iloc[header_row_idx].fillna("").astype(str).tolist()`. -/
def headersOf (df : Grid) (h : Nat) : List Str := (rowAt df h).map cellStrFill

/-- The `best_count`/`best_col` accumulator of SKU-column strategy 2. -/
def bestColAux (score : Nat → Nat) : List Nat → Nat × Option Nat → Nat × Option Nat
  | [], acc => acc
  | i :: is, (bs, bc) =>
    bestColAux score is (if bs < score i then (score i, some i) else (bs, bc))

/-- `AdvancedDocumentProcessor._find_sku_column_advanced`: keyword match on
header names; else the column (among the first 10) with the most valid SKUs in
the next 20 data rows (counting stops at 10) when that count reaches 5; else
column 2 when its first data cell is a valid SKU (Wellborn layout); else 0. -/
def find_sku_column_advanced (df : Grid) (headers : List Str) (h : Nat) : Nat :=
  let skuKws := [str2c "sku", str2c "code", str2c "item", str2c "part",
    str2c "catalog", str2c "product"]
  match (List.range headers.length).find? (fun i =>
      skuKws.any (fun k => isSub k (pyStrip (pyLower (headers.getD i []))))) with
  | some i => i
  | none =>
    let rows := ((List.range (min (h + 21) df.length)).drop (h + 1))
    let colCount := fun c =>
      min 10 ((rows.filter (fun r => is_valid_sku (pyStrip (cellStr (cellAt df r c))))).length)
    let best := bestColAux colCount (List.range (min 10 headers.length)) (0, none)
    if 5 ≤ best.1 then best.2.getD 0
    else if 2 < headers.length ∧ h + 1 < df.length ∧
        is_valid_sku (pyStrip (cellStr (cellAt df (h + 1) 2))) = true then 2
    else 0

/-- Price parse used by price-column detection strategy 3:
`str(cell).replace("$","").replace(",","").replace("OPT","").strip()` then
`float`, or the value itself for a numeric cell; counted when the result is
finite and in `[10, 1000000]`. -/
def priceProbe (c : Cell) : Bool :=
  match c with
  | .na => false
  | .num q _ => decide (10 ≤ q ∧ q ≤ 1000000)
  | .txt s =>
    match pyFloat (pyStrip (pyReplace (str2c "OPT") []
        (pyReplace [44] [] (pyReplace [36] [] s)))) with
    | some (.fin q) => decide (10 ≤ q ∧ q ≤ 1000000)
    | _ => false

/-- `AdvancedDocumentProcessor._find_price_columns_advanced`: per header,
skip the SKU column and metadata-keyword headers; take grade-keyword headers;
take capitalised non-dimension headers whose first 10 data rows contain at
least 3 plausible prices; if nothing was found, fall back to the 25 columns
after the first `AW` header (skipping the SKU column) or after the SKU
column. -/
def find_price_columns_advanced (df : Grid) (headers : List Str) (h skuCol : Nat) :
    List Nat :=
  let gradePats := [str2c "elite", str2c "premium", str2c "prime",
    str2c "choice", str2c "cherry", str2c "maple", str2c "oak",
    str2c "painted", str2c "duraform"]
  let metaKws := [str2c "rush", str2c "cf", str2c "aw", str2c "receives",
    str2c "species", str2c "y", str2c "n"]
  let dimKws := [str2c "deep", str2c "high", str2c "wide", str2c "x",
    str2c "inch", str2c "dimension"]
  let rows := ((List.range (min (h + 11) df.length)).drop (h + 1))
  let main := (List.range headers.length).filter (fun i =>
    if i = skuCol then false
    else
      let hl := pyStrip (pyLower (headers.getD i []))
      if metaKws.any (fun k => isSub k hl) then false
      else if gradePats.any (fun k => isSub k hl) then true
      else
        let hs := pyStrip (headers.getD i [])
        decide (3 ≤ hs.length) && isUpA (hs.headD 0) && !(hs.all isDig) &&
          !(dimKws.any (fun k => isSub k hl)) &&
          decide (3 ≤ (rows.filter (fun r => priceProbe (cellAt df r i))).length))
  if main.isEmpty then
    let scan := (List.range headers.length).foldl
      (fun (acc : Option Nat × Option Nat) i =>
        let hu := pyUpper (headers.getD i [])
        if isSub (str2c "CF") hu ∧ acc.1 = none then (some i, acc.2)
        else if isSub (str2c "AW") hu ∧ acc.2 = none then (acc.1, some i)
        else acc) (none, none)
    match scan.2 with
    | some aw =>
      (List.range headers.length).filter (fun i =>
        aw + 1 ≤ i ∧ i < aw + 26 ∧ i ≠ skuCol)
    | none =>
      (List.range headers.length).filter (fun i =>
        skuCol + 1 ≤ i ∧ i < skuCol + 25)
  else main

/-- Python `round(x, 2)` on the exact value: half-to-even at the second
decimal. -/
def round2 (q : ℚ) : ℚ :=
  let x := q * 100
  let f : ℤ := ⌊x⌋
  let r := x - (f : ℚ)
  let n : ℤ :=
    if r < 1 / 2 then f
    else if 1 / 2 < r then f + 1
    else if f % 2 = 0 then f else f + 1
  (n : ℚ) / 100

/-- Per-cell price extraction of
`AdvancedDocumentProcessor._extract_prices_advanced`: a numeric cell is taken
directly; a string cell is stripped of `OPT`/`opt`, `$` and `,`, then the
embedded-amount regex is searched and its group parsed (falling back to a
direct `float` when the regex finds no digit); the result is kept only when
truthy and inside `[10, 1000000]` (never for `inf`/`nan`), rounded to 2
decimals. -/
def extract_price_cell (value : Cell) : Option ℚ :=
  let keep : ℚ → Option ℚ := fun q =>
    if q ≠ 0 ∧ 10 ≤ q ∧ q ≤ 1000000 then some (round2 q) else none
  match value with
  | .na => none
  | .num q _ => keep q
  | .txt s =>
    let s2 := pyStrip (pyReplace (str2c "opt") [] (pyReplace (str2c "OPT") [] (pyStrip s)))
    let s3 := pyStrip (pyReplace [44] [] (pyReplace [36] [] s2))
    match priceSearch s3 with
    | some g =>
      (match pyFloat (pyReplace [36] [] (pyReplace [44] [] g)) with
       | some (.fin q) => keep q
       | _ => none)
    | none =>
      (match pyFloat s3 with
       | some (.fin q) => keep q
       | _ => none)

/-- Python-dict assignment `m[k] = v` on an association list: overwrite in
place or append. -/
def dictSet (m : List (Str × α)) (k : Str) (v : α) : List (Str × α) :=
  if m.any (fun p => p.1 = k) then m.map (fun p => if p.1 = k then (k, v) else p)
  else m ++ [(k, v)]

/-- `AdvancedDocumentProcessor._extract_prices_advanced` over one row: visit
each price column inside both the header list and the row, skip empty or
`NAN`/`NONE` headers, and record each extracted price under the stripped
header label. -/
def extract_prices_advanced (row : List Cell) (priceCols : List Nat)
    (headers : List Str) : List (Str × ℚ) :=
  priceCols.foldl (fun prices pidx =>
    if pidx < headers.length ∧ pidx < row.length then
      let h := pyStrip (headers.getD pidx [])
      if h = [] ∨ pyUpper h = str2c "NAN" ∨ pyUpper h = str2c "NONE" then prices
      else
        match extract_price_cell (row.getD pidx .na) with
        | some q => dictSet prices h q
        | none => prices
    else prices) []

/-- One record of `structured_data["skus"]` (its `grades` entry is
`list(prices.keys())` and is not duplicated here). -/
structure SkuRec where
  sheet : Str
  prices : List (Str × ℚ)
  rowIndex : Nat
  rawSku : Str
deriving DecidableEq, Repr

/-- One data-row step of `_process_excel_advanced`: read and strip the SKU
cell, skip `NAN`/`NONE`/empty/`Y`/`N` markers and invalid SKUs, otherwise
store the record under the normalized SKU — whether or not any price was
extracted. -/
def advProcessRow (sheetName : Str) (df : Grid) (headers : List Str)
    (skuCol : Nat) (priceCols : List Nat) (skus : List (Str × SkuRec))
    (idx : Nat) : List (Str × SkuRec) :=
  let row := rowAt df idx
  let raw := if skuCol < row.length then pyStrip (cellStr (row.getD skuCol .na)) else []
  let skipMarkers := [str2c "NAN", str2c "NONE", ([] : Str), str2c "Y", str2c "N"]
  if raw.isEmpty || skipMarkers.any (fun m => pyUpper raw = m) then skus
  else if !is_valid_sku raw then skus
  else
    let sku := normalize_sku raw
    let prices := extract_prices_advanced row priceCols headers
    dictSet skus sku ⟨sheetName, prices, idx, raw⟩

/-- Per-sheet pass of `_process_excel_advanced` (empty sheets are skipped;
`structured_data["chunks"]` and the row counters are bookkeeping around the
same loop and are not modelled). -/
def advProcessSheet (skus₀ : List (Str × SkuRec)) (sheetName : Str) (df : Grid) :
    List (Str × SkuRec) :=
  if df.isEmpty then skus₀
  else
    let h := detect_header_advanced df
    let headers := headersOf df h
    let skuCol := find_sku_column_advanced df headers h
    let priceCols := find_price_columns_advanced df headers h skuCol
    ((List.range df.length).drop (h + 1)).foldl
      (advProcessRow sheetName df headers skuCol priceCols) skus₀

/-- Result of `_process_excel_advanced`: an error payload or the SKU index. -/
inductive AdvResult where
  | err (msg : Str)
  | ok (skus : List (Str × SkuRec))
deriving DecidableEq, Repr

/-- `AdvancedDocumentProcessor._process_excel_advanced` on an already-loaded
workbook (cold cache): process every sheet into the SKU index; when no SKU at
all was extracted, return the explicit error result instead of a success with
an empty index. -/
def process_excel_advanced (sheets : List (Str × Grid)) : AdvResult :=
  let skus := sheets.foldl (fun acc p => advProcessSheet acc p.1 p.2) []
  if skus.length = 0 then
    .err (str2c "No SKUs extracted from Excel file - check header detection and SKU column identification")
  else .ok skus

/-! ## `create_advanced_context` — per-token SKU matching
(lines 929–1066 of `advanced_document_processor.py`) -/

/-- `wants_all_variants` detection of `create_advanced_context`: one of the
listed phrases occurs in the lower-cased question. -/
def wantsAllVariants (question : Str) : Bool :=
  let ql := pyLower question
  [str2c "all material options", str2c "all options", str2c "all variants",
   str2c "all variations", str2c "full pricing", str2c "full breakdown",
   str2c "complete pricing", str2c "all finishes", str2c "all grades",
   str2c "all materials", str2c "every option"].any (fun p => isSub p ql)

/-- State of the catalog scan for one query token: `matched_skus`,
`found_exact`, `found_variants`. -/
structure MatchSt where
  matched : List Str
  foundExact : Bool
  variants : List Str
deriving Repr

/-- A code is its own base form:
`re.match(r'^([A-Z]{1,3}\d{2,})(?:\s|[-]|$)', s.upper().strip())` matches and
the whole string equals the captured group. -/
def isBaseForm (s : Str) : Bool :=
  let u := pyStrip (pyUpper s)
  match leadBaseTerm u with
  | some b => u = b
  | none => false

/-- One iteration of the `for catalog_sku in structured_data["skus"]` loop of
`create_advanced_context`: exact matches (equal normalizations, or the
upper-cased catalog code equals the query token) are pushed to the front of
`matched_skus`; otherwise codes with the same base code are collected into
`found_variants`, base forms first. -/
def matchLoopStep (querySku nq base : Str) (st : MatchSt) (catalogSku : Str) :
    MatchSt :=
  let cu := pyStrip (pyUpper catalogSku)
  let nc := normalize_sku catalogSku
  let cbase := (leadBase cu).getD cu
  let queryIsBase := pyUpper base = pyStrip (pyUpper querySku)
  let catalogIsBase :=
    match leadBase cu with
    | some b => cu = b
    | none => false
  if nq = nc ∨ pyUpper catalogSku = querySku then
    if st.matched.any (fun y => y = catalogSku) then st
    else { st with matched := catalogSku :: st.matched, foundExact := true }
  else if pyUpper base = pyUpper cbase then
    if st.matched.any (fun y => y = catalogSku) then st
    else if catalogIsBase && queryIsBase then
      { st with variants := catalogSku :: st.variants }
    else { st with variants := st.variants ++ [catalogSku] }
  else st

/-- `for variant in found_variants: if variant not in matched: matched.append`. -/
def appendNew (m : List Str) (vs : List Str) : List Str :=
  vs.foldl (fun m v => if m.any (fun y => y = v) then m else m ++ [v]) m

/-- The complete per-token matching of `create_advanced_context` (scan the
catalog, then combine `matched_skus` and `found_variants` according to
`wants_all_variants` / `found_exact` / whether the query token is a bare base
code). -/
def matchSkuToken (wantsAll : Bool) (querySku : Str) (catalog : List Str)
    (matched₀ : List Str) : List Str :=
  let nq := normalize_sku querySku
  let base := (leadBase nq).getD nq
  let st := catalog.foldl (matchLoopStep querySku nq base) ⟨matched₀, false, []⟩
  let queryIsBase := pyUpper base = pyStrip (pyUpper querySku)
  if wantsAll then appendNew st.matched st.variants
  else if st.foundExact then
    match st.matched with
    | [] => []
    | e :: rest =>
      if !isBaseForm e && queryIsBase then
        match st.variants.find? (fun v => isBaseForm v) with
        | some v => if (e :: rest).any (fun y => y = v) then e :: rest else v :: rest
        | none => e :: rest
      else e :: rest
  else if queryIsBase then
    let m1 :=
      match st.variants.find? (fun v => isBaseForm v) with
      | some v => if st.matched.any (fun y => y = v) then st.matched else v :: st.matched
      | none => st.matched
    appendNew m1 st.variants
  else appendNew st.matched st.variants

/-! ## `pricing_processor.py` — `PricingProcessor` -/

/-- `PricingProcessor.sku_pattern = re.compile(r'^[A-Z]{1,4}\d{2,}', re.IGNORECASE)`,
via `.match`: maximal leading letter run of length 1–4 followed by at least
two digits (shorter takes of the greedy quantifiers leave a letter where a
digit is required). -/
def pricingSkuMatch (s : Str) : Bool :=
  let ls := s.takeWhile isLet
  let t := s.drop ls.length
  decide (1 ≤ ls.length ∧ ls.length ≤ 4 ∧ 2 ≤ (t.takeWhile isDig).length)

/-- `PricingProcessor._parse_price`: `None` and `NaN` cells give nothing,
numeric cells are returned as floats, string cells are stripped of `$` and
`,` and parsed with `float` unless empty or a junk marker; a `ValueError`
gives nothing.  No range check and no rounding happens here. -/
def parse_price (val : Cell) : Option PyF :=
  match val with
  | .na => none
  | .num q _ => some (.fin q)
  | .txt s =>
    let text := pyStrip (pyReplace [44] [] (pyReplace [36] [] s))
    let junk := [str2c "nan", str2c "none", str2c "---", str2c "-", str2c "n/a"]
    if text ≠ [] ∧ ¬ (junk.any (fun j => pyLower text = j) = true) then pyFloat text
    else none

/-- `PricingProcessor._find_header_row`: first of the first 20 rows whose
joined lower-cased cell text contains a grade/price keyword, else row 0. -/
def pricing_find_header_row (df : Grid) : Nat :=
  let kws := [str2c "elite", str2c "premium", str2c "prime", str2c "choice",
    str2c "cherry", str2c "maple", str2c "grade", str2c "price", str2c "base"]
  (((List.range (min 20 df.length))).find? (fun i =>
    let text := joinSpace (((rowAt df i).filter Cell.notna).map (fun c => pyLower (cellStr c)))
    kws.any (fun k => isSub k text))).getD 0

/-- `PricingProcessor._find_data_start`: first row at or after the header
whose first cell matches the SKU shape, else `header + 1`. -/
def pricing_find_data_start (df : Grid) (header : Nat) : Nat :=
  match ((List.range df.length).drop header).find? (fun i =>
      pricingSkuMatch (pyUpper (pyStrip (cellStr (cellAt df i 0))))) with
  | some i => i
  | none => header + 1

/-- `f"Column_{i+1}"`. -/
def colDefault (i : Nat) : Str :=
  str2c "Column_" ++ (Nat.toDigits 10 (i + 1)).map Char.toNat

/-- `PricingProcessor._extract_columns`: per column, the first line of the
header cell, stripped, unless missing or a junk marker, in which case a
`Column_{i+1}` placeholder. -/
def pricing_extract_columns (df : Grid) (header : Nat) : List Str :=
  (List.range (ncols df)).map (fun i =>
    match cellAt df header i with
    | .na => colDefault i
    | c =>
      let name := pyStrip ((cellStr c).takeWhile (fun ch => ch ≠ 10))
      if name ≠ [] ∧ pyLower name ≠ str2c "nan" ∧ pyLower name ≠ str2c "none" then name
      else colDefault i)

/-- `PricingProcessor._find_price_columns`: every non-first column whose
first 15 data rows contain at least 3 values parsing into `[10, 100000]`
(infinite and NaN parses fail the chained comparison). -/
def pricing_find_price_columns (df : Grid) (columns : List Str) (start : Nat) :
    List (Nat × Str) :=
  ((List.range columns.length).drop 1).filterMap (fun idx =>
    let rows := (List.range (min (start + 15) df.length)).drop start
    let cnt := (rows.filter (fun r =>
      if idx < ncols df then
        match parse_price (cellAt df r idx) with
        | some (.fin q) => decide (10 ≤ q ∧ q ≤ 100000)
        | _ => false
      else false)).length
    if 3 ≤ cnt then some (idx, columns.getD idx []) else none)

/-- One extracted product of `PricingProcessor.process_excel`. -/
structure PricingProduct where
  sku : Str
  prices : List (Str × PyF)
  row : Nat
deriving DecidableEq, Repr

/-- The success payload of `PricingProcessor.process_excel`: on the normal
(no-exception) path the returned dict has no `"error"` key, whatever the
product count. -/
structure PricingResult where
  products : List PricingProduct
  columns : List Str
  error : Option Str
deriving DecidableEq, Repr

/-- `PricingProcessor.process_excel` on the selected sheet's grid (file I/O
and `_select_sheet` run before this logic; exceptions are the only source of
an `"error"` key and are outside the embedding): find the header, columns,
data start and price columns, then keep each SKU row — but only when at
least one price was parsed for it (`if prices:`). -/
def pricing_process_excel (df : Grid) : PricingResult :=
  let header := pricing_find_header_row df
  let columns := pricing_extract_columns df header
  let dataStart := pricing_find_data_start df header
  let priceCols := pricing_find_price_columns df columns dataStart
  let products := ((List.range df.length).drop dataStart).foldl (fun acc rowIdx =>
    let sku := pyUpper (pyStrip (cellStr (cellAt df rowIdx 0)))
    if sku.isEmpty || sku = str2c "NAN" || sku = str2c "NONE" ||
        !pricingSkuMatch sku then acc
    else
      let prices := priceCols.foldl (fun ps p =>
        if p.1 < ncols df then
          match parse_price (cellAt df rowIdx p.1) with
          | some v => dictSet ps p.2 v
          | none => ps
        else ps) []
      if prices.isEmpty then acc
      else acc ++ [⟨sku, prices, rowIdx + 1⟩]) []
  ⟨products, priceCols.map (fun p => p.2), none⟩

/-! ## `intelligent_retrieval.py` — `IntelligentRetrieval` -/

/-- `QueryIntent` of `nlp_question_analyzer.py`. -/
inductive QueryIntent where
  | price_inquiry
  | code_listing
  | calculation
  | comparison
  | specification
  | availability
  | general
deriving DecidableEq, Repr

/-- The fields of `QuestionIntent` read by the retrieval scorer: the intent
category, the keyword list, and the `skus`/`prices`/`grades` entries of the
entity dictionary. -/
structure QuestionIntent where
  intent : QueryIntent
  keywords : List Str
  entSkus : List Str
  entPrices : List ℚ
  entGrades : List Str
deriving Repr

/-- The fields of a chunk read by the retrieval scorer (`text`,
`metadata["sku"]`, a top-level `sku`, the entity lists) plus its
`metadata["row"]` provenance, which the scorer never reads. -/
structure Chunk where
  text : Str
  metaSku : Option Str
  topSku : Option Str
  entSkus : List Str
  entPrices : List ℚ
  entGrades : List Str
  metaRow : Nat
deriving DecidableEq, Repr

instance : Inhabited Chunk := ⟨⟨[], none, none, [], [], [], 0⟩⟩

/-- `np.clip(x, 0.0, 1.0)`. -/
def clip01 (x : ℚ) : ℚ := max 0 (min x 1)

/-- `IntelligentRetrieval._keyword_match_score`:
`min(matches / len(keywords), 1.0)`, 0 without keywords. -/
def keyword_match_score (keywords : List Str) (chunkText : Str) : ℚ :=
  if keywords.isEmpty then 0
  else min (((keywords.filter (fun k => isSub k chunkText)).length : ℚ) /
    (keywords.length : ℚ)) 1

/-- `s.replace(" ", "").replace("-", "").replace("_", "")`. -/
def squash (s : Str) : Str :=
  pyReplace [95] [] (pyReplace [45] [] (pyReplace [32] [] s))

/-- `chunk_sku` of `_score_chunk`: `metadata["sku"].upper().strip()` when a
string, else the top-level `sku` field. -/
def chunkSkuOf (c : Chunk) : Str :=
  let m := match c.metaSku with | some s => pyStrip (pyUpper s) | none => []
  if !m.isEmpty then m
  else match c.topSku with | some s => pyStrip (pyUpper s) | none => []

/-- The `for q_sku in question_skus` loop of `_score_chunk`: exact match
(squashed equality, or raw equality) scores 1.0 and stops; otherwise the
running maximum of 0.9 for a squashed-prefix relation, 0.6 for a
squashed-containment relation, 0.8 for equal base codes. -/
def skuMatchAux (chunkSku chunkN : Str) : List Str → ℚ → ℚ
  | [], acc => acc
  | q :: qs, acc =>
    let qn := squash q
    if qn = chunkN ∨ chunkSku = q then 1
    else
      let acc' :=
        if isPre qn chunkN || isPre chunkN qn then max acc 0.9
        else if isSub qn chunkN || isSub chunkN qn then max acc 0.6
        else
          match leadBase qn, leadBase chunkN with
          | some a, some b => if a = b then max acc 0.8 else acc
          | _, _ => acc
      skuMatchAux chunkSku chunkN qs acc'

/-- Deduplicated list in first-occurrence order (Python `set` cardinality
helper). -/
def dedup (l : List Str) : List Str :=
  l.foldl (fun acc x => if acc.any (fun y => y = x) then acc else acc ++ [x]) []

/-- Jaccard similarity of two lower-cased string sets. -/
def jaccardLower (a b : List Str) : ℚ :=
  let sa := dedup (a.map pyLower)
  let sb := dedup (b.map pyLower)
  let inter := (sa.filter (fun x => sb.any (fun y => y = x))).length
  let uni := (dedup (sa ++ sb)).length
  if uni = 0 then 0 else (inter : ℚ) / (uni : ℚ)

/-- `IntelligentRetrieval._entity_match_score`: Jaccard similarity of SKU
sets (weight 0.5), fraction of question prices matched within 1 % by some
chunk price (weight 0.3), Jaccard similarity of grade sets (weight 0.2);
each term only when both sides are non-empty; the weighted average clipped
to `[0, 1]`, or 0 when no term applies. -/
def entity_match_score (qSkus : List Str) (qPrices : List ℚ) (qGrades : List Str)
    (cSkus : List Str) (cPrices : List ℚ) (cGrades : List Str) : ℚ :=
  let parts : List (ℚ × ℚ) :=
    (if !qSkus.isEmpty ∧ !cSkus.isEmpty then [(jaccardLower qSkus cSkus, 0.5)] else []) ++
    (if !qPrices.isEmpty ∧ !cPrices.isEmpty then
      [((((qPrices.filter (fun q =>
            cPrices.any (fun cp => |cp - q| ≤ q * 0.01))).length : ℚ) /
          (qPrices.length : ℚ)), 0.3)]
     else []) ++
    (if !qGrades.isEmpty ∧ !cGrades.isEmpty then
      [(jaccardLower qGrades cGrades, 0.2)] else [])
  if parts.isEmpty then 0
  else clip01 (((parts.map (fun p => p.1 * p.2)).sum) / ((parts.map (fun p => p.2)).sum))

/-- `IntelligentRetrieval._intent_match_score`. -/
def intent_match_score (intent : QueryIntent) (chunkText : Str)
    (cPrices : List ℚ) (cSkus : List Str) : ℚ :=
  match intent with
  | .price_inquiry =>
    if [str2c "price", str2c "cost", str2c "$", str2c "dollar"].any
        (fun k => isSub k chunkText) then 1
    else if !cPrices.isEmpty then 0.8 else 0.2
  | .code_listing =>
    if !cSkus.isEmpty then 1
    else if skuLooseSearch chunkText then 0.8 else 0.2
  | .calculation =>
    if !cPrices.isEmpty then 1
    else if hasDigit chunkText then 0.6 else 0.2
  | .comparison =>
    if 1 < cPrices.length ∨ 1 < cSkus.length then 1
    else if !cPrices.isEmpty ∨ !cSkus.isEmpty then 0.6 else 0.2
  | _ => 0.5

/-- `IntelligentRetrieval._phrase_match_score`: best over sliding word
windows of length 2–4 contained in the chunk text, scored `len / 4`. -/
def phrase_match_score (question chunkText : Str) : ℚ :=
  let ws := pySplit question
  if ws.length < 2 then 0
  else
    ((List.range (min 5 (ws.length + 1))).filter (fun l => 2 ≤ l)).foldl
      (fun acc l =>
        (List.range (ws.length - l + 1)).foldl (fun a i =>
          if isSub (joinSpace ((ws.drop i).take l)) chunkText then
            max a ((l : ℚ) / 4)
          else a) acc) 0

/-- `IntelligentRetrieval._score_chunk`: the weighted signals — keywords
(0.4), SKU match (0.5, only when positive), entity match (0.25, only when
the SKU match stayed below 0.5), intent fit (0.2), exact phrases (0.1) —
averaged by the weights actually present and clipped to `[0, 1]`. -/
def score_chunk (question : Str) (qi : QuestionIntent) (c : Chunk) : ℚ :=
  let chunkText := pyLower c.text
  let kwScore := keyword_match_score qi.keywords chunkText
  let csku := chunkSkuOf c
  let qskus := qi.entSkus.map (fun s => pyStrip (pyUpper s))
  let skuScore :=
    if !qskus.isEmpty ∧ !csku.isEmpty then skuMatchAux csku (squash csku) qskus 0
    else 0
  let entScore := entity_match_score qi.entSkus qi.entPrices qi.entGrades
    c.entSkus c.entPrices c.entGrades
  let intScore := intent_match_score qi.intent chunkText c.entPrices c.entSkus
  let phrScore := phrase_match_score (pyLower question) chunkText
  let parts : List (ℚ × ℚ) :=
    [(kwScore, 0.4)] ++
    (if 0 < skuScore then [(skuScore, 0.5)] else []) ++
    (if skuScore < 0.5 then [(entScore, 0.25)] else []) ++
    [(intScore, 0.2), (phrScore, 0.1)]
  clip01 (((parts.map (fun p => p.1 * p.2)).sum) / ((parts.map (fun p => p.2)).sum))

/-- Stable ascending insertion by the key `(score, index)` — the
deterministic reading of `np.argsort` on the score column (ties keep index
order, which is what numpy produces here). -/
def insertIdx (v : Nat → ℚ) (i : Nat) : List Nat → List Nat
  | [] => [i]
  | j :: rest =>
    if v i < v j ∨ (v i = v j ∧ i ≤ j) then i :: j :: rest
    else j :: insertIdx v i rest

/-- Ascending stable argsort of the indices `l` by the key `v`. -/
def argsortAsc (v : Nat → ℚ) (l : List Nat) : List Nat := l.foldr (insertIdx v) []

/-- `IntelligentRetrieval.retrieve`: score every chunk, keep the positive
scores, sort ascending with `np.argsort` on the score column, reverse
(`[::-1]`), take the first `top_k` and return those chunks. -/
def retrieve (question : Str) (qi : QuestionIntent) (chunks : List Chunk)
    (topK : Nat) : List Chunk :=
  let scored := (chunks.map (fun c => (score_chunk question qi c, c))).filter
    (fun p => 0 < p.1)
  let v : Nat → ℚ := fun i => (scored.getD i (0, default)).1
  let idxDesc := (argsortAsc v (List.range scored.length)).reverse
  (idxDesc.take topK).map (fun i => (scored.getD i (0, default)).2)

/-! ## `file_cache.py` -/

/-- `f"{file_hash}_{cache_key}"`. -/
def mkFullKey (h ck : Str) : Str := h ++ [95] ++ ck

/-- `clear_cache(file_path)` on the `_file_cache` dictionary: drop every key
starting with the file's hash. -/
def clearCacheData (h : Str) (cache : List (Str × α)) : List (Str × α) :=
  cache.filter (fun kv => !(isPre h kv.1))

/-- `clear_cache(file_path)` on `_cache_timestamps`: the removed keys are
those computed from `_file_cache` (`keys_to_remove`), so a timestamp entry is
dropped exactly when its key starts with the hash *and* is a cache key. -/
def clearCacheTs (h : Str) (cache : List (Str × α)) (ts : List (Str × β)) :
    List (Str × β) :=
  ts.filter (fun kv => !(isPre h kv.1 && cache.any (fun c => c.1 = kv.1)))

/-- `clear_cache(None)`: `.clear()` on both dictionaries. -/
def clearCacheAll (_cache : List (Str × α)) (_ts : List (Str × β)) :
    (List (Str × α)) × (List (Str × β)) := ([], [])

/-- `base_match.group(1) if base_match else <the string itself>` — the
base-code expression used at both match sites of `create_advanced_context`
(on the normalized query and on the upper-cased catalog code). -/
def baseCodeOf (s : Str) : Str := (leadBase s).getD s

/-- The key order of the deterministic `np.argsort` reading: by score, ties
by original index. -/
def lexLe (v : Nat → ℚ) (i j : Nat) : Prop := v i < v j ∨ (v i = v j ∧ i ≤ j)

/-- A catalog code that is already in canonical form and carries the base
code `q`: normalization and upper-casing fix it, and the base-code regex
captures exactly `q` on it. -/
def CanonWithBase (q c : Str) : Prop :=
  normalize_sku c = c ∧ pyUpper c = c ∧ pyStrip c = c ∧ leadBase c = some q

instance (q c : Str) : Decidable (CanonWithBase q c) := by
  unfold CanonWithBase; infer_instance


/-- Adjacent characters are not both whitespace: the relation that holds
between neighbours of a whitespace-collapsed string. -/
def spcR (a b : Nat) : Prop := isSpc a = false ∨ isSpc b = false

instance : DecidableRel spcR := fun a b =>
  inferInstanceAs (Decidable (isSpc a = false ∨ isSpc b = false))

/-- A collapsed string: every whitespace character is a plain space, no two
adjacent characters are whitespace, and it neither starts nor ends with
whitespace.  `' '.join(s.split())` produces exactly such strings and fixes
them. -/
def colld (u : Str) : Prop :=
  (∀ c ∈ u, isSpc c = true → c = 32) ∧
  List.Chain' spcR u ∧
  (∀ c, u.head? = some c → isSpc c = false) ∧
  (∀ c, u.getLast? = some c → isSpc c = false)

/-! ## Theorems -/

/-- C7: for every question, analysed intent and candidate chunk, the
relevance score of `IntelligentRetrieval._score_chunk` lies in `[0, 1]`:
the per-signal scores are kept in `[0, 1]`, the final score is the sum of
the weighted signals divided by the sum of the weights actually present,
and the result is clipped to `[0, 1]`. -/
theorem score_chunk_bounded (question : Str) (qi : QuestionIntent) (c : Chunk) :
    0 ≤ score_chunk question qi c ∧ score_chunk question qi c ≤ 1 := by
  unfold score_chunk clip01
  constructor
  · exact le_max_left 0 _
  · exact max_le (by norm_num) (min_le_right _ 1)

/-- C1 (code bug): evaluating `_extract_prices_advanced`'s per-cell parsing
at the spec's round-trip inputs.  The textual cell `"$1,234.50"` is stored as
`123.00` (the dollar sign and comma are stripped *before* the amount regex
runs, and its leading group `\d{1,3}` then captures only `123`), not the
`1234.50` the spec promises; the string `"45000000"` is likewise truncated to
the in-range `450.00` instead of being rejected; `"OPT 342"` parses to
`342.00` as specified, and an already-numeric out-of-range `45000000` is
rejected. -/
theorem extract_price_cell_on_failing_inputs :
    extract_price_cell (.txt (str2c "$1,234.50")) = some 123 ∧
    extract_price_cell (.txt (str2c "$1,234.50")) ≠ some (1234.50 : ℚ) ∧
    extract_price_cell (.txt (str2c "45000000")) = some 450 ∧
    extract_price_cell (.num 45000000 (str2c "45000000.0")) = none ∧
    extract_price_cell (.txt (str2c "OPT 342")) = some 342 := by
  have h1 : extract_price_cell (.txt (str2c "$1,234.50")) = some 123 := by
    have hsearch : priceSearch (pyStrip (pyReplace [44] [] (pyReplace [36] []
        (pyStrip (pyReplace (str2c "opt") [] (pyReplace (str2c "OPT") []
          (pyStrip (str2c "$1,234.50")))))))) = some [49, 50, 51] := by decide
    have hfloat : pyFloat (pyReplace [36] [] (pyReplace [44] [] ([49, 50, 51] : Str))) =
        some (.fin (decToRat [49, 50, 51] [])) := by rfl
    simp only [extract_price_cell, hsearch, hfloat]
    norm_num [decToRat, digitsToNat, round2, List.foldl]
  have h3 : extract_price_cell (.txt (str2c "45000000")) = some 450 := by
    have hsearch : priceSearch (pyStrip (pyReplace [44] [] (pyReplace [36] []
        (pyStrip (pyReplace (str2c "opt") [] (pyReplace (str2c "OPT") []
          (pyStrip (str2c "45000000")))))))) = some [52, 53, 48] := by decide
    have hfloat : pyFloat (pyReplace [36] [] (pyReplace [44] [] ([52, 53, 48] : Str))) =
        some (.fin (decToRat [52, 53, 48] [])) := by rfl
    simp only [extract_price_cell, hsearch, hfloat]
    norm_num [decToRat, digitsToNat, round2, List.foldl]
  have h5 : extract_price_cell (.txt (str2c "OPT 342")) = some 342 := by
    have hsearch : priceSearch (pyStrip (pyReplace [44] [] (pyReplace [36] []
        (pyStrip (pyReplace (str2c "opt") [] (pyReplace (str2c "OPT") []
          (pyStrip (str2c "OPT 342")))))))) = some [51, 52, 50] := by decide
    have hfloat : pyFloat (pyReplace [36] [] (pyReplace [44] [] ([51, 52, 50] : Str))) =
        some (.fin (decToRat [51, 52, 50] [])) := by rfl
    simp only [extract_price_cell, hsearch, hfloat]
    norm_num [decToRat, digitsToNat, round2, List.foldl]
  refine ⟨h1, ?_, h3, ?_, h5⟩
  · rw [h1]; intro h; injection h with h; norm_num at h
  · norm_num [extract_price_cell]

/-- C9 (amended, advanced path): `_process_excel_advanced` never returns a
success result carrying an empty SKU index — extracting zero records always
surfaces the explicit error result instead. -/
theorem process_excel_advanced_no_silent_empty (sheets : List (Str × Grid)) :
    process_excel_advanced sheets ≠ AdvResult.ok [] := by
  simp only [process_excel_advanced]
  split
  · intro h; cases h
  · next h =>
    intro heq
    injection heq with heq
    exact h (by rw [heq]; rfl)

/-- C9 (counterexample, pricing path): a sheet from which zero product
records can be extracted (no cell of the identifier column matches the SKU
shape) makes `PricingProcessor.process_excel` return a success payload with
an empty product list and no error marker — a silent empty result. -/
theorem pricing_process_excel_silent_empty :
    pricing_process_excel
      [[Cell.txt (str2c "SKU"), Cell.txt (str2c "Price")],
       [Cell.txt (str2c "???"), Cell.txt (str2c "xyz")]] =
      ⟨[], [], none⟩ := by decide

/-- Assigning a key always leaves it present, with the assigned value
(`m[k] = v` on the association-list model of a Python dict). -/
theorem mem_dictSet_self {α : Type} (m : List (Str × α)) (k : Str) (v : α) :
    (k, v) ∈ dictSet m k v := by
  unfold dictSet
  split
  · next h =>
    obtain ⟨p, hp, hpk⟩ := List.any_eq_true.mp h
    refine List.mem_map.mpr ⟨p, hp, ?_⟩
    simp [of_decide_eq_true hpk]
  · exact List.mem_append_right _ (List.mem_singleton.mpr rfl)

/-- C2 (amended, advanced path): a data row whose identifier cell passes the
marker filter and `SKUValidator.is_valid_sku` is always stored in the SKU
index by `_process_excel_advanced`'s row step, carrying exactly the value map
`_extract_prices_advanced` produced — also when that map is empty. -/
theorem advProcessRow_retains (sheetName : Str) (df : Grid) (headers : List Str)
    (skuCol : Nat) (priceCols : List Nat) (skus : List (Str × SkuRec)) (idx : Nat)
    (hlt : skuCol < (rowAt df idx).length)
    (hne : ((pyStrip (cellStr ((rowAt df idx).getD skuCol .na))).isEmpty ||
      [str2c "NAN", str2c "NONE", ([] : Str), str2c "Y", str2c "N"].any
        (fun m => pyUpper (pyStrip (cellStr ((rowAt df idx).getD skuCol .na))) = m)) = false)
    (hvalid : is_valid_sku (pyStrip (cellStr ((rowAt df idx).getD skuCol .na))) = true) :
    (normalize_sku (pyStrip (cellStr ((rowAt df idx).getD skuCol .na))),
      (⟨sheetName, extract_prices_advanced (rowAt df idx) priceCols headers, idx,
        pyStrip (cellStr ((rowAt df idx).getD skuCol .na))⟩ : SkuRec)) ∈
      advProcessRow sheetName df headers skuCol priceCols skus idx := by
  simp only [advProcessRow]
  rw [if_pos hlt, hne, hvalid]
  simp only [Bool.false_eq_true, if_false, Bool.not_true]
  exact mem_dictSet_self _ _ _

/-- C2 (witness): a concrete row with the valid code `B24` and a value cell
`---` that parses to nothing is retained with an empty value map. -/
theorem advProcessRow_retains_witness :
    (extract_prices_advanced
        (rowAt [[Cell.txt (str2c "SKU"), Cell.txt (str2c "Elite Cherry")],
                [Cell.txt (str2c "B24"), Cell.txt (str2c "---")]] 1)
        [1]
        [str2c "SKU", str2c "Elite Cherry"]) = [] ∧
    (str2c "B24",
      (⟨str2c "Sheet1", [], 1, str2c "B24"⟩ : SkuRec)) ∈
      advProcessRow (str2c "Sheet1")
        [[Cell.txt (str2c "SKU"), Cell.txt (str2c "Elite Cherry")],
         [Cell.txt (str2c "B24"), Cell.txt (str2c "---")]]
        [str2c "SKU", str2c "Elite Cherry"] 0 [1] [] 1 := by
  have hemp : (extract_prices_advanced
      (rowAt [[Cell.txt (str2c "SKU"), Cell.txt (str2c "Elite Cherry")],
              [Cell.txt (str2c "B24"), Cell.txt (str2c "---")]] 1)
      [1]
      [str2c "SKU", str2c "Elite Cherry"]) = [] := by decide
  refine ⟨hemp, ?_⟩
  have h := advProcessRow_retains (str2c "Sheet1")
    [[Cell.txt (str2c "SKU"), Cell.txt (str2c "Elite Cherry")],
     [Cell.txt (str2c "B24"), Cell.txt (str2c "---")]]
    [str2c "SKU", str2c "Elite Cherry"] 0 [1] [] 1
    (by decide) (by decide) (by decide)
  rw [hemp] at h
  have hraw : pyStrip (cellStr ((rowAt
      [[Cell.txt (str2c "SKU"), Cell.txt (str2c "Elite Cherry")],
       [Cell.txt (str2c "B24"), Cell.txt (str2c "---")]] 1).getD 0 .na)) =
      str2c "B24" := by decide
  rw [hraw] at h
  have hnorm : normalize_sku (str2c "B24") = str2c "B24" := by decide
  rw [hnorm] at h
  exact h

/-- C2 (counterexample, pricing path): the same kind of row — valid code
`B24`, no parsable price — is dropped entirely by
`PricingProcessor.process_excel` (`if prices:`), so the code is absent from
its result, not present with an empty value map. -/
theorem pricing_process_excel_drops_empty :
    pricing_process_excel
      [[Cell.txt (str2c "SKU"), Cell.txt (str2c "Price")],
       [Cell.txt (str2c "B24"), Cell.txt (str2c "xyz")]] =
      ⟨[], [], none⟩ ∧
    pricingSkuMatch (pyUpper (pyStrip (cellStr (cellAt
      [[Cell.txt (str2c "SKU"), Cell.txt (str2c "Price")],
       [Cell.txt (str2c "B24"), Cell.txt (str2c "xyz")]] 1 0)))) = true := by
  constructor
  · decide
  · decide

/-- The argsort key order is total. -/
theorem lexLe_total (v : Nat → ℚ) (i j : Nat) : lexLe v i j ∨ lexLe v j i := by
  rcases lt_trichotomy (v i) (v j) with h | h | h
  · exact Or.inl (Or.inl h)
  · rcases Nat.le_total i j with hij | hij
    · exact Or.inl (Or.inr ⟨h, hij⟩)
    · exact Or.inr (Or.inr ⟨h.symm, hij⟩)
  · exact Or.inr (Or.inl h)

/-- The argsort key order is transitive. -/
theorem lexLe_trans (v : Nat → ℚ) {i j k : Nat} (h₁ : lexLe v i j)
    (h₂ : lexLe v j k) : lexLe v i k := by
  rcases h₁ with h₁ | ⟨he₁, hl₁⟩
  · rcases h₂ with h₂ | ⟨he₂, _⟩
    · exact Or.inl (h₁.trans h₂)
    · exact Or.inl (he₂ ▸ h₁)
  · rcases h₂ with h₂ | ⟨he₂, hl₂⟩
    · exact Or.inl (he₁ ▸ h₂)
    · exact Or.inr ⟨he₁.trans he₂, hl₁.trans hl₂⟩

/-- Membership through one insertion step. -/
theorem mem_insertIdx (v : Nat → ℚ) (i x : Nat) :
    ∀ l : List Nat, x ∈ insertIdx v i l ↔ x = i ∨ x ∈ l := by
  intro l
  induction l with
  | nil => simp [insertIdx]
  | cons j rest ih =>
    unfold insertIdx
    split
    · simp
    · simp only [List.mem_cons, ih]
      tauto

/-- Insertion preserves sortedness in the key order. -/
theorem insertIdx_sorted (v : Nat → ℚ) (i : Nat) :
    ∀ l : List Nat, l.Sorted (lexLe v) → (insertIdx v i l).Sorted (lexLe v) := by
  intro l
  induction l with
  | nil => intro _; simp [insertIdx, List.Sorted]
  | cons j rest ih =>
    intro hs
    rw [List.sorted_cons] at hs
    unfold insertIdx
    split
    · next h =>
      rw [List.sorted_cons]
      refine ⟨?_, List.sorted_cons.mpr hs⟩
      intro b hb
      rcases List.mem_cons.mp hb with rfl | hb
      · exact h
      · exact lexLe_trans v h (hs.1 b hb)
    · next h =>
      have hji : lexLe v j i := (lexLe_total v i j).resolve_left h
      rw [List.sorted_cons]
      refine ⟨?_, ih hs.2⟩
      intro b hb
      rcases (mem_insertIdx v i b rest).mp hb with rfl | hb
      · exact hji
      · exact hs.1 b hb

/-- The ascending argsort is sorted in the key order. -/
theorem argsortAsc_sorted (v : Nat → ℚ) (l : List Nat) :
    (argsortAsc v l).Sorted (lexLe v) := by
  induction l with
  | nil => simp [argsortAsc, List.Sorted]
  | cons i rest ih => exact insertIdx_sorted v i _ ih

/-- The argsort permutes only the given indices. -/
theorem argsortAsc_subset (v : Nat → ℚ) (l : List Nat) :
    ∀ x ∈ argsortAsc v l, x ∈ l := by
  induction l with
  | nil => simp [argsortAsc]
  | cons i rest ih =>
    intro x hx
    rcases (mem_insertIdx v i x _).mp hx with rfl | hx
    · exact List.mem_cons_self _ _
    · exact List.mem_cons_of_mem _ (ih x hx)

/-- Every stored pair of the scored pool carries the score of its chunk. -/
theorem scored_fst_eq (question : Str) (qi : QuestionIntent) (chunks : List Chunk)
    (p : ℚ × Chunk)
    (hp : p ∈ (chunks.map (fun c => (score_chunk question qi c, c))).filter
      (fun p => decide (0 < p.1))) :
    p.1 = score_chunk question qi p.2 := by
  have hm := (List.mem_filter.mp hp).1
  obtain ⟨c, _, rfl⟩ := List.mem_map.mp hm
  rfl

/-- C6 (amended): `IntelligentRetrieval.retrieve` returns at most `top_k`
chunks, in non-increasing score order.  (The tie order is *reversed* pool
order, not pool order — see the counterexample theorem.) -/
theorem retrieve_topk_sorted (question : Str) (qi : QuestionIntent)
    (chunks : List Chunk) (k : Nat) :
    (retrieve question qi chunks k).length ≤ k ∧
    ((retrieve question qi chunks k).map (score_chunk question qi)).Sorted
      (fun a b => b ≤ a) := by
  unfold retrieve
  set scored := (chunks.map (fun c => (score_chunk question qi c, c))).filter
    (fun p => decide (0 < p.1)) with hscored
  set v : Nat → ℚ := fun i => (scored.getD i (0, default)).1 with hv
  set idx := (argsortAsc v (List.range scored.length)).reverse with hidx
  constructor
  · rw [List.length_map, List.length_take]
    exact Nat.min_le_left _ _
  · have hmemidx : ∀ x ∈ idx, x < scored.length := by
      intro x hx
      rw [hidx, List.mem_reverse] at hx
      exact List.mem_range.mp (argsortAsc_subset v _ x hx)
    have hcong : ((idx.take k).map fun i => (scored.getD i (0, default)).2).map
        (score_chunk question qi) = (idx.take k).map v := by
      rw [List.map_map]
      refine List.map_congr_left ?_
      intro i hi
      have hilt : i < scored.length :=
        hmemidx i (List.mem_of_mem_take hi)
      have hmem : scored.getD i (0, default) ∈ scored := by
        rw [List.getD_eq_getElem _ _ hilt]
        exact List.getElem_mem _
      have := scored_fst_eq question qi chunks _ hmem
      simp only [Function.comp_apply, hv]
      exact this.symm
    rw [hcong]
    have hpw : idx.Pairwise (fun i j => lexLe v j i) := by
      rw [hidx]
      exact (List.pairwise_reverse).mpr (argsortAsc_sorted v _)
    have hpwt : (idx.take k).Pairwise (fun i j => lexLe v j i) :=
      hpw.sublist (List.take_sublist k idx)
    rw [List.Sorted, List.pairwise_map]
    refine hpwt.imp ?_
    intro i j hji
    rcases hji with h | ⟨h, _⟩
    · exact le_of_lt h
    · exact le_of_eq h

/-- C6 (counterexample): two pool candidates with equal positive scores come
back in *reversed* pool order — `np.argsort` sorts ascending and the code
reverses it, so the claimed stable original-order tie-break fails.  The two
chunks differ only in their row provenance, so their scores coincide. -/
theorem retrieve_tie_reversed :
    retrieve [] ⟨.general, [], [], [], []⟩
      [⟨[], none, none, [], [], [], 0⟩, ⟨[], none, none, [], [], [], 1⟩] 10 =
      [⟨[], none, none, [], [], [], 1⟩, ⟨[], none, none, [], [], [], 0⟩] ∧
    score_chunk [] ⟨.general, [], [], [], []⟩ ⟨[], none, none, [], [], [], 0⟩ =
      score_chunk [] ⟨.general, [], [], [], []⟩ ⟨[], none, none, [], [], [], 1⟩ ∧
    (⟨[], none, none, [], [], [], 0⟩ : Chunk) ≠ ⟨[], none, none, [], [], [], 1⟩ := by
  refine ⟨?_, rfl, by decide⟩
  norm_num [retrieve, score_chunk, keyword_match_score, chunkSkuOf,
    entity_match_score, intent_match_score, phrase_match_score, clip01,
    pyLower, pySplit, pySplitF, skuLooseSearch, hasDigit,
    argsortAsc, insertIdx, List.range, List.range.loop, default]

/-- The best-row accumulator distributes over list append. -/
theorem bestRowAux_append (score : Nat → ℚ) (l₁ l₂ : List Nat) (acc : ℚ × Option Nat) :
    bestRowAux score (l₁ ++ l₂) acc = bestRowAux score l₂ (bestRowAux score l₁ acc) := by
  induction l₁ generalizing acc with
  | nil => rfl
  | cons i is ih =>
    simp only [List.cons_append, bestRowAux]
    exact ih _

/-- Behaviour of the `best_score`/`best_row` loop of
`_detect_header_advanced` over the scanned range: either every row scored
non-positively and no best row was recorded, or the recorded row is the
first row of maximal (positive) score. -/
theorem bestRowAux_range_spec (score : Nat → ℚ) (n : Nat) :
    ((bestRowAux score (List.range n) (0, none)).2 = none ∧
      (bestRowAux score (List.range n) (0, none)).1 = 0 ∧
      ∀ j < n, score j ≤ 0) ∨
    (∃ r, (bestRowAux score (List.range n) (0, none)).2 = some r ∧
      (bestRowAux score (List.range n) (0, none)).1 = score r ∧
      r < n ∧ 0 < score r ∧ (∀ j < n, score j ≤ score r) ∧
      ∀ j < r, score j < score r) := by
  induction n with
  | zero => exact Or.inl ⟨rfl, rfl, by omega⟩
  | succ n ih =>
    rw [List.range_succ, bestRowAux_append]
    rcases ih with ⟨h2, h1, hall⟩ | ⟨r, h2, h1, hrn, hrpos, hall, hfirst⟩
    · obtain ⟨q, o, hqo⟩ : ∃ q o, bestRowAux score (List.range n) (0, none) = (q, o) :=
        ⟨_, _, rfl⟩
      rw [hqo] at h1 h2 ⊢
      subst h1 h2
      by_cases hpos : (0 : ℚ) < score n
      · refine Or.inr ⟨n, ?_⟩
        simp only [bestRowAux, if_pos hpos]
        refine ⟨by trivial, by trivial, Nat.lt_succ_self n, hpos, ?_, ?_⟩
        · intro j hj
          rcases Nat.lt_succ_iff_lt_or_eq.mp hj with hj | rfl
          · exact (hall j hj).trans (le_of_lt hpos)
          · exact le_refl _
        · intro j hj
          exact lt_of_le_of_lt (hall j hj) hpos
      · refine Or.inl ?_
        simp only [bestRowAux, if_neg hpos]
        refine ⟨by trivial, by trivial, ?_⟩
        intro j hj
        rcases Nat.lt_succ_iff_lt_or_eq.mp hj with hj | rfl
        · exact hall j hj
        · exact le_of_not_lt hpos
    · obtain ⟨q, o, hqo⟩ : ∃ q o, bestRowAux score (List.range n) (0, none) = (q, o) :=
        ⟨_, _, rfl⟩
      rw [hqo] at h1 h2 ⊢
      subst h1 h2
      by_cases hlt : score r < score n
      · refine Or.inr ⟨n, ?_⟩
        simp only [bestRowAux, if_pos hlt]
        refine ⟨by trivial, by trivial, Nat.lt_succ_self n, hrpos.trans hlt, ?_, ?_⟩
        · intro j hj
          rcases Nat.lt_succ_iff_lt_or_eq.mp hj with hj | rfl
          · exact (hall j hj).trans (le_of_lt hlt)
          · exact le_refl _
        · intro j hj
          exact lt_of_le_of_lt (hall j hj) hlt
      · refine Or.inr ⟨r, ?_⟩
        simp only [bestRowAux, if_neg hlt]
        refine ⟨by trivial, by trivial, Nat.lt_succ_of_lt hrn, hrpos, ?_, hfirst⟩
        intro j hj
        rcases Nat.lt_succ_iff_lt_or_eq.mp hj with hj | rfl
        · exact hall j hj
        · exact le_of_not_lt hlt

/-- C8 (amended): whenever some scanned row (among the first 20) scores
positively, `_detect_header_advanced` returns a row index inside the scanned
range that carries the maximal score, and every earlier row scores strictly
less — the first maximum wins.  (When every row scores 0 the keyword
fallback over rows 0–2 decides instead, and can return a higher index than
the lowest-scoring tie — see the counterexample theorem.) -/
theorem detect_header_argmax (df : Grid) (i : Nat) (hi : i < min 20 df.length)
    (hpos : 0 < rowScore df i) :
    detect_header_advanced df < min 20 df.length ∧
    (∀ j < min 20 df.length, rowScore df j ≤ rowScore df (detect_header_advanced df)) ∧
    (∀ j < detect_header_advanced df, rowScore df j < rowScore df (detect_header_advanced df)) := by
  rcases bestRowAux_range_spec (rowScore df) (min 20 df.length) with
    ⟨_, _, hall⟩ | ⟨r, h2, _, hrn, _, hall, hfirst⟩
  · exact absurd hpos (not_lt_of_le (hall i hi))
  · have hres : detect_header_advanced df = r := by
      simp only [detect_header_advanced]
      rw [if_pos (Or.inr (by rw [h2]; exact fun h => Option.noConfusion h)), h2]
      rfl
    rw [hres]
    exact ⟨hrn, hall, hfirst⟩

/-- C8 (witness): a one-row sheet whose row reads `SKU | Price` scores
positively (keyword + text-heavy + no-code bonuses), so the detector returns
its argmax row with the stated properties. -/
theorem detect_header_argmax_witness :
    (0 : ℚ) < rowScore [[Cell.txt (str2c "SKU"), Cell.txt (str2c "Price")]] 0 ∧
    (detect_header_advanced [[Cell.txt (str2c "SKU"), Cell.txt (str2c "Price")]] <
      min 20 ([[Cell.txt (str2c "SKU"), Cell.txt (str2c "Price")]] : Grid).length ∧
    (∀ j < min 20 ([[Cell.txt (str2c "SKU"), Cell.txt (str2c "Price")]] : Grid).length,
      rowScore [[Cell.txt (str2c "SKU"), Cell.txt (str2c "Price")]] j ≤
      rowScore [[Cell.txt (str2c "SKU"), Cell.txt (str2c "Price")]]
        (detect_header_advanced [[Cell.txt (str2c "SKU"), Cell.txt (str2c "Price")]])) ∧
    (∀ j < detect_header_advanced [[Cell.txt (str2c "SKU"), Cell.txt (str2c "Price")]],
      rowScore [[Cell.txt (str2c "SKU"), Cell.txt (str2c "Price")]] j <
      rowScore [[Cell.txt (str2c "SKU"), Cell.txt (str2c "Price")]]
        (detect_header_advanced [[Cell.txt (str2c "SKU"), Cell.txt (str2c "Price")]]))) := by
  have hkw : rowKwCount [[Cell.txt (str2c "SKU"), Cell.txt (str2c "Price")]] 0 = 1 := by decide
  have ht : rowTextCount [[Cell.txt (str2c "SKU"), Cell.txt (str2c "Price")]] 0 = 2 := by decide
  have hn : rowNumCount [[Cell.txt (str2c "SKU"), Cell.txt (str2c "Price")]] 0 = 0 := by decide
  have hm : rowMatCount [[Cell.txt (str2c "SKU"), Cell.txt (str2c "Price")]] 0 = 2 := by decide
  have hc : rowHasCodes [[Cell.txt (str2c "SKU"), Cell.txt (str2c "Price")]] 0 = false := by decide
  have hpos : (0 : ℚ) < rowScore [[Cell.txt (str2c "SKU"), Cell.txt (str2c "Price")]] 0 := by
    rw [rowScore, hkw, ht, hn, hm, hc]
    norm_num
  exact ⟨hpos, detect_header_argmax _ 0 (by decide) hpos⟩

/-- C8 (counterexample): on a sheet where every scanned row scores exactly 0
(each row holds a cabinet-code cell, is number-heavy and keyword-free), the
code does not fall back to the lowest tie index 0: the keyword fallback over
rows 0–2 fires on the word `price` — which is in the fallback list but not in
the scoring list — and returns row 1. -/
theorem detect_header_fallback_not_lowest :
    rowScore [[Cell.txt (str2c "B24"), Cell.txt (str2c "5"), Cell.txt (str2c "6")],
              [Cell.txt (str2c "B24 price"), Cell.txt (str2c "5"), Cell.txt (str2c "6")]] 0 = 0 ∧
    rowScore [[Cell.txt (str2c "B24"), Cell.txt (str2c "5"), Cell.txt (str2c "6")],
              [Cell.txt (str2c "B24 price"), Cell.txt (str2c "5"), Cell.txt (str2c "6")]] 1 = 0 ∧
    detect_header_advanced
      [[Cell.txt (str2c "B24"), Cell.txt (str2c "5"), Cell.txt (str2c "6")],
       [Cell.txt (str2c "B24 price"), Cell.txt (str2c "5"), Cell.txt (str2c "6")]] = 1 := by
  have hkw0 : rowKwCount [[Cell.txt (str2c "B24"), Cell.txt (str2c "5"), Cell.txt (str2c "6")],
      [Cell.txt (str2c "B24 price"), Cell.txt (str2c "5"), Cell.txt (str2c "6")]] 0 = 0 := by decide
  have ht0 : rowTextCount [[Cell.txt (str2c "B24"), Cell.txt (str2c "5"), Cell.txt (str2c "6")],
      [Cell.txt (str2c "B24 price"), Cell.txt (str2c "5"), Cell.txt (str2c "6")]] 0 = 1 := by decide
  have hn0 : rowNumCount [[Cell.txt (str2c "B24"), Cell.txt (str2c "5"), Cell.txt (str2c "6")],
      [Cell.txt (str2c "B24 price"), Cell.txt (str2c "5"), Cell.txt (str2c "6")]] 0 = 2 := by decide
  have hm0 : rowMatCount [[Cell.txt (str2c "B24"), Cell.txt (str2c "5"), Cell.txt (str2c "6")],
      [Cell.txt (str2c "B24 price"), Cell.txt (str2c "5"), Cell.txt (str2c "6")]] 0 = 1 := by decide
  have hc0 : rowHasCodes [[Cell.txt (str2c "B24"), Cell.txt (str2c "5"), Cell.txt (str2c "6")],
      [Cell.txt (str2c "B24 price"), Cell.txt (str2c "5"), Cell.txt (str2c "6")]] 0 = true := by decide
  have hkw1 : rowKwCount [[Cell.txt (str2c "B24"), Cell.txt (str2c "5"), Cell.txt (str2c "6")],
      [Cell.txt (str2c "B24 price"), Cell.txt (str2c "5"), Cell.txt (str2c "6")]] 1 = 0 := by decide
  have ht1 : rowTextCount [[Cell.txt (str2c "B24"), Cell.txt (str2c "5"), Cell.txt (str2c "6")],
      [Cell.txt (str2c "B24 price"), Cell.txt (str2c "5"), Cell.txt (str2c "6")]] 1 = 1 := by decide
  have hn1 : rowNumCount [[Cell.txt (str2c "B24"), Cell.txt (str2c "5"), Cell.txt (str2c "6")],
      [Cell.txt (str2c "B24 price"), Cell.txt (str2c "5"), Cell.txt (str2c "6")]] 1 = 2 := by decide
  have hm1 : rowMatCount [[Cell.txt (str2c "B24"), Cell.txt (str2c "5"), Cell.txt (str2c "6")],
      [Cell.txt (str2c "B24 price"), Cell.txt (str2c "5"), Cell.txt (str2c "6")]] 1 = 1 := by decide
  have hc1 : rowHasCodes [[Cell.txt (str2c "B24"), Cell.txt (str2c "5"), Cell.txt (str2c "6")],
      [Cell.txt (str2c "B24 price"), Cell.txt (str2c "5"), Cell.txt (str2c "6")]] 1 = true := by decide
  have h0 : rowScore [[Cell.txt (str2c "B24"), Cell.txt (str2c "5"), Cell.txt (str2c "6")],
      [Cell.txt (str2c "B24 price"), Cell.txt (str2c "5"), Cell.txt (str2c "6")]] 0 = 0 := by
    rw [rowScore, hkw0, ht0, hn0, hm0, hc0]; norm_num
  have h1 : rowScore [[Cell.txt (str2c "B24"), Cell.txt (str2c "5"), Cell.txt (str2c "6")],
      [Cell.txt (str2c "B24 price"), Cell.txt (str2c "5"), Cell.txt (str2c "6")]] 1 = 0 := by
    rw [rowScore, hkw1, ht1, hn1, hm1, hc1]; norm_num
  refine ⟨h0, h1, ?_⟩
  have hrange : List.range (min 20
      ([[Cell.txt (str2c "B24"), Cell.txt (str2c "5"), Cell.txt (str2c "6")],
        [Cell.txt (str2c "B24 price"), Cell.txt (str2c "5"), Cell.txt (str2c "6")]] : Grid).length) =
      [0, 1] := by decide
  have hfall : (((List.range 3).filter
      (fun r => r < ([[Cell.txt (str2c "B24"), Cell.txt (str2c "5"), Cell.txt (str2c "6")],
        [Cell.txt (str2c "B24 price"), Cell.txt (str2c "5"), Cell.txt (str2c "6")]] : Grid).length)).find?
      (fun r => fallbackKws.any (fun k => isSub k (rowStrL
        [[Cell.txt (str2c "B24"), Cell.txt (str2c "5"), Cell.txt (str2c "6")],
         [Cell.txt (str2c "B24 price"), Cell.txt (str2c "5"), Cell.txt (str2c "6")]] r)))) =
      some 1 := by decide
  have hb : bestRowAux (rowScore
      [[Cell.txt (str2c "B24"), Cell.txt (str2c "5"), Cell.txt (str2c "6")],
       [Cell.txt (str2c "B24 price"), Cell.txt (str2c "5"), Cell.txt (str2c "6")]])
      (List.range (min 20
        ([[Cell.txt (str2c "B24"), Cell.txt (str2c "5"), Cell.txt (str2c "6")],
          [Cell.txt (str2c "B24 price"), Cell.txt (str2c "5"), Cell.txt (str2c "6")]] : Grid).length))
      (0, none) = (0, none) := by
    rcases bestRowAux_range_spec (rowScore
        [[Cell.txt (str2c "B24"), Cell.txt (str2c "5"), Cell.txt (str2c "6")],
         [Cell.txt (str2c "B24 price"), Cell.txt (str2c "5"), Cell.txt (str2c "6")]])
        (min 20
          ([[Cell.txt (str2c "B24"), Cell.txt (str2c "5"), Cell.txt (str2c "6")],
            [Cell.txt (str2c "B24 price"), Cell.txt (str2c "5"), Cell.txt (str2c "6")]] : Grid).length) with
      ⟨ha, hbs, _⟩ | ⟨r, _, _, hr2, hrpos, _, _⟩
    · exact Prod.ext hbs ha
    · have hr2' : r < 2 := by simpa using hr2
      interval_cases r
      · rw [h0] at hrpos; norm_num at hrpos
      · rw [h1] at hrpos; norm_num at hrpos
  simp only [detect_header_advanced, hb]
  norm_num
  decide
theorem matchLoopStep_bare (q : Str) (m : List Str) (e : Bool) (vs : List Str)
    (hq : CanonWithBase q q) (hnm : (m.any (fun y => y = q)) = false) :
    matchLoopStep q q q ⟨m, e, vs⟩ q = ⟨q :: m, true, vs⟩ := by
  obtain ⟨hnq, _, _, _⟩ := hq
  simp only [matchLoopStep]
  rw [if_pos (Or.inl hnq.symm), hnm]
  simp

theorem matchLoopStep_bare_mem (q : Str) (m : List Str) (e : Bool) (vs : List Str)
    (hq : CanonWithBase q q) (hnm : (m.any (fun y => y = q)) = true) :
    matchLoopStep q q q ⟨m, e, vs⟩ q = ⟨m, e, vs⟩ := by
  obtain ⟨hnq, _, _, _⟩ := hq
  simp only [matchLoopStep]
  rw [if_pos (Or.inl hnq.symm), hnm]
  simp

theorem matchLoopStep_variant (q c : Str) (m : List Str) (e : Bool) (vs : List Str)
    (hq : CanonWithBase q q) (hc : CanonWithBase q c) (hcq : c ≠ q)
    (hnm : (m.any (fun y => y = c)) = false) :
    matchLoopStep q q q ⟨m, e, vs⟩ c = ⟨m, e, vs ++ [c]⟩ := by
  obtain ⟨hnq, huq, hsq, hbq⟩ := hq
  obtain ⟨hnc, huc, hsc, hbc⟩ := hc
  simp only [matchLoopStep]
  rw [if_neg ?hne, if_pos ?hbase, hnm]
  case hne =>
    rw [hnc, huc]
    rintro (h | h)
    · exact hcq h.symm
    · exact hcq h
  case hbase =>
    rw [huc, hsc, hbc]
    rfl
  simp only [Bool.false_eq_true, if_false]
  rw [if_neg ?hnb]
  case hnb =>
    rw [huc, hsc, hbc]
    simp only [Bool.and_eq_true, decide_eq_true_eq]
    rintro ⟨h, _⟩
    exact hcq h

/-- The catalog scan of `create_advanced_context` over canonical codes with
base `q`: the bare record `q` (once seen) sits alone in `matched_skus` with
`found_exact` set, and every other code is appended to `found_variants` in
scan order. -/
theorem matchLoop_canon (q : Str) (hq : CanonWithBase q q) :
    ∀ (catalog : List Str), (∀ c ∈ catalog, CanonWithBase q c) →
    ∀ (e : Bool) (vs : List Str),
    catalog.foldl (matchLoopStep q q q) ⟨if e then [q] else [], e, vs⟩ =
      ⟨if (e || decide (q ∈ catalog)) then [q] else [],
        e || decide (q ∈ catalog),
        vs ++ catalog.filter (fun c => decide (¬c = q))⟩ := by
  intro catalog
  induction catalog with
  | nil => intro _ e vs; simp
  | cons c cs ih =>
    intro hcat e vs
    have hcs : ∀ c' ∈ cs, CanonWithBase q c' := fun c' hc' =>
      hcat c' (List.mem_cons_of_mem c hc')
    rw [List.foldl_cons]
    by_cases hcq : c = q
    · subst hcq
      have hstep : matchLoopStep c c c ⟨if e then [c] else [], e, vs⟩ c =
          ⟨if true then [c] else [], true, vs⟩ := by
        cases e with
        | false => exact matchLoopStep_bare c [] false vs hq (by simp)
        | true => exact matchLoopStep_bare_mem c [c] true vs hq (by simp)
      rw [hstep, ih hcs true vs]
      have hmem : decide (c ∈ c :: cs) = true := by simp
      rw [hmem]
      simp [List.filter_cons]
    · have hqc : ¬ q = c := fun h => hcq h.symm
      have hstep : matchLoopStep q q q ⟨if e then [q] else [], e, vs⟩ c =
          ⟨if e then [q] else [], e, vs ++ [c]⟩ := by
        refine matchLoopStep_variant q c _ e vs hq (hcat c (List.mem_cons_self c cs)) hcq ?_
        cases e <;> simp [hqc]
      rw [hstep, ih hcs e (vs ++ [c])]
      have hmem : (q ∈ c :: cs) ↔ (q ∈ cs) := by
        simp only [List.mem_cons]
        exact or_iff_right hqc
      have hfil : (c :: cs).filter (fun x => decide (¬x = q)) =
          c :: cs.filter (fun x => decide (¬x = q)) := by
        simp [List.filter_cons, hcq]
      rw [hfil]
      simp only [hmem, List.append_assoc, List.cons_append, List.nil_append]

/-- `for v in vs: if v not in m: m.append(v)` appends everything when the
listed items are distinct and none is already present. -/
theorem appendNew_of_disjoint (vs : List Str) :
    ∀ (m : List Str), vs.Nodup → (∀ v ∈ vs, ¬ v ∈ m) → appendNew m vs = m ++ vs := by
  induction vs with
  | nil => intro m _ _; simp [appendNew]
  | cons v vs ih =>
    intro m hnd hdis
    have hnm : (m.any (fun y => y = v)) = false := by
      rw [List.any_eq_false]
      intro x hx
      simp only [decide_eq_true_eq]
      rintro rfl
      exact hdis x (List.mem_cons_self x vs) hx
    have hdis2 : ∀ v' ∈ vs, ¬ v' ∈ m ++ [v] := by
      intro v' hv'
      rw [List.mem_append, List.mem_singleton]
      rintro (h | rfl)
      · exact hdis v' (List.mem_cons_of_mem v hv') h
      · exact (List.nodup_cons.mp hnd).1 hv'
    show appendNew (if (m.any (fun y => y = v)) = true then m else m ++ [v]) vs = m ++ v :: vs
    rw [hnm]
    simp only [Bool.false_eq_true, if_false]
    rw [ih (m ++ [v]) (List.nodup_cons.mp hnd).2 hdis2]
    simp

/-- C3: with the "show all variants" intent, matching a bare base-code query
token against a catalog whose codes are canonical and all share the query's
base code returns every one of them, with the bare base form placed first
(the remaining variants keep their catalog order). -/
theorem matchSkuToken_all_variants (q : Str) (catalog : List Str)
    (hq : CanonWithBase q q)
    (hcat : ∀ c ∈ catalog, CanonWithBase q c)
    (hbare : q ∈ catalog) (hnd : catalog.Nodup) :
    matchSkuToken true q catalog [] =
      q :: catalog.filter (fun c => decide (¬c = q)) := by
  obtain ⟨hnq, huq, hsq, hbq⟩ := hq
  have hbase2 : (leadBase q).getD q = q := by rw [hbq]; rfl
  simp only [matchSkuToken, hnq, hbase2, if_true]
  have hfold := matchLoop_canon q ⟨hnq, huq, hsq, hbq⟩ catalog hcat false []
  have hmem : decide (q ∈ catalog) = true := decide_eq_true hbare
  simp only [Bool.false_or, Bool.false_eq_true, if_false, hmem, if_true,
    List.nil_append] at hfold
  rw [hfold]
  have hdisj : ∀ v ∈ catalog.filter (fun c => decide (¬c = q)), ¬ v ∈ [q] := by
    intro v hv
    have := List.of_mem_filter hv
    simp only [decide_eq_true_eq] at this
    simp [this]
  rw [appendNew_of_disjoint _ [q] (hnd.filter _) hdisj]
  simp

/-- C3 (witness): the spec scenario — catalog `W3030`, `W3030 BUTT`,
`W3030 SD`, query token `W3030` under a "show all variants" question — yields
all three records with the bare base form first. -/
theorem matchSkuToken_all_variants_witness :
    wantsAllVariants (str2c "show all variants of w3030") = true ∧
    matchSkuToken true (str2c "W3030")
      [str2c "W3030", str2c "W3030 BUTT", str2c "W3030 SD"] [] =
      [str2c "W3030", str2c "W3030 BUTT", str2c "W3030 SD"] := by
  refine ⟨by decide, ?_⟩
  have h := matchSkuToken_all_variants (str2c "W3030")
    [str2c "W3030", str2c "W3030 BUTT", str2c "W3030 SD"]
    (by decide) (by decide) (by decide) (by decide)
  rw [h]
  decide

/-- `isPre` is prefix decomposition. -/
theorem isPre_iff_append (p : Str) : ∀ s, isPre p s = true ↔ ∃ t, s = p ++ t := by
  induction p with
  | nil => intro s; simp [isPre]
  | cons a p ih =>
    intro s
    cases s with
    | nil => simp [isPre]
    | cons c cs =>
      simp only [isPre, Bool.and_eq_true, decide_eq_true_eq, ih cs]
      constructor
      · rintro ⟨rfl, t, rfl⟩
        exact ⟨t, rfl⟩
      · rintro ⟨t, ht⟩
        injection ht with h1 h2
        exact ⟨h1.symm, t, h2⟩

/-- `startswith(file_hash)` on a well-formed full cache key picks out exactly
the keys built from the same (fixed-length) hash. -/
theorem isPre_mkFullKey_iff (h h' ck : Str) (hl : h.length = 32)
    (hl' : h'.length = 32) : isPre h (mkFullKey h' ck) = true ↔ h = h' := by
  constructor
  · intro hp
    obtain ⟨t, ht⟩ := (isPre_iff_append h _).mp hp
    have hmk : mkFullKey h' ck = h' ++ (95 :: ck) := by
      simp [mkFullKey]
    have h32 : (mkFullKey h' ck).take 32 = h' := by
      rw [hmk, ← hl', List.take_left]
    rw [ht] at h32
    rw [← h32, ← hl, List.take_left]
  · rintro rfl
    exact (isPre_iff_append h _).mpr ⟨[95] ++ ck, by simp [mkFullKey]⟩

/-- C10: invalidating the cache for one file removes exactly the data and
timestamp entries whose key is built from that file's (fixed-length, md5)
content hash and keeps every entry of any other file untouched, assuming the
maintained invariant that timestamp keys are cache keys; invalidating with no
file empties both dictionaries. -/
theorem clear_cache_exact_frame {α β : Type} (cache : List (Str × α))
    (ts : List (Str × β)) (h h' ck : Str) (v : α) (t : β)
    (hl : h.length = 32) (hl' : h'.length = 32)
    (hts : ∀ k ∈ ts.map Prod.fst, k ∈ cache.map Prod.fst) :
    ((mkFullKey h' ck, v) ∈ clearCacheData h cache ↔
      (mkFullKey h' ck, v) ∈ cache ∧ h' ≠ h) ∧
    ((mkFullKey h' ck, t) ∈ clearCacheTs h cache ts ↔
      (mkFullKey h' ck, t) ∈ ts ∧ h' ≠ h) ∧
    clearCacheAll cache ts = ([], []) := by
  refine ⟨?_, ?_, rfl⟩
  · unfold clearCacheData
    rw [List.mem_filter]
    constructor
    · rintro ⟨hm, hcond⟩
      refine ⟨hm, ?_⟩
      intro heq
      rw [Bool.not_eq_true', ← Bool.not_eq_true] at hcond
      exact hcond ((isPre_mkFullKey_iff h h' ck hl hl').mpr heq.symm)
    · rintro ⟨hm, hne⟩
      refine ⟨hm, ?_⟩
      rw [Bool.not_eq_true', ← Bool.not_eq_true]
      intro hp
      exact hne ((isPre_mkFullKey_iff h h' ck hl hl').mp hp).symm
  · unfold clearCacheTs
    rw [List.mem_filter]
    constructor
    · rintro ⟨hm, hcond⟩
      refine ⟨hm, ?_⟩
      intro heq
      subst heq
      have hany : (cache.any (fun c => c.1 = mkFullKey h' ck)) = true := by
        rw [List.any_eq_true]
        have : mkFullKey h' ck ∈ cache.map Prod.fst :=
          hts _ (List.mem_map.mpr ⟨(mkFullKey h' ck, t), hm, rfl⟩)
        obtain ⟨p, hp, hpk⟩ := List.mem_map.mp this
        exact ⟨p, hp, decide_eq_true hpk⟩
      rw [(isPre_mkFullKey_iff h' h' ck hl hl').mpr rfl, hany] at hcond
      simp at hcond
    · rintro ⟨hm, hne⟩
      refine ⟨hm, ?_⟩
      have hp : isPre h (mkFullKey h' ck) = false := by
        rw [← Bool.not_eq_true]
        intro hp
        exact hne ((isPre_mkFullKey_iff h h' ck hl hl').mp hp).symm
      rw [hp]
      simp

/-- C10 (witness): two files with distinct 32-character hashes; invalidating
the first keeps the second file's data and timestamp entries and empties
everything on a no-file invalidation. -/
theorem clear_cache_exact_frame_witness :
    ((mkFullKey (str2c "bbbbbbbbbbbbbbbbbbbbbbbbbbbbbbbb") (str2c "excel_advanced_processed"), (2 : Nat)) ∈
      clearCacheData (str2c "aaaaaaaaaaaaaaaaaaaaaaaaaaaaaaaa")
        [(mkFullKey (str2c "aaaaaaaaaaaaaaaaaaaaaaaaaaaaaaaa") (str2c "excel_advanced_processed"), (1 : Nat)),
         (mkFullKey (str2c "bbbbbbbbbbbbbbbbbbbbbbbbbbbbbbbb") (str2c "excel_advanced_processed"), 2)] ↔
      (mkFullKey (str2c "bbbbbbbbbbbbbbbbbbbbbbbbbbbbbbbb") (str2c "excel_advanced_processed"), 2) ∈
        [(mkFullKey (str2c "aaaaaaaaaaaaaaaaaaaaaaaaaaaaaaaa") (str2c "excel_advanced_processed"), (1 : Nat)),
         (mkFullKey (str2c "bbbbbbbbbbbbbbbbbbbbbbbbbbbbbbbb") (str2c "excel_advanced_processed"), 2)] ∧
        str2c "bbbbbbbbbbbbbbbbbbbbbbbbbbbbbbbb" ≠ str2c "aaaaaaaaaaaaaaaaaaaaaaaaaaaaaaaa") ∧
    ((mkFullKey (str2c "bbbbbbbbbbbbbbbbbbbbbbbbbbbbbbbb") (str2c "excel_advanced_processed"), (20 : Nat)) ∈
      clearCacheTs (str2c "aaaaaaaaaaaaaaaaaaaaaaaaaaaaaaaa")
        [(mkFullKey (str2c "aaaaaaaaaaaaaaaaaaaaaaaaaaaaaaaa") (str2c "excel_advanced_processed"), (1 : Nat)),
         (mkFullKey (str2c "bbbbbbbbbbbbbbbbbbbbbbbbbbbbbbbb") (str2c "excel_advanced_processed"), 2)]
        [(mkFullKey (str2c "bbbbbbbbbbbbbbbbbbbbbbbbbbbbbbbb") (str2c "excel_advanced_processed"), (20 : Nat))] ↔
      (mkFullKey (str2c "bbbbbbbbbbbbbbbbbbbbbbbbbbbbbbbb") (str2c "excel_advanced_processed"), 20) ∈
        [(mkFullKey (str2c "bbbbbbbbbbbbbbbbbbbbbbbbbbbbbbbb") (str2c "excel_advanced_processed"), (20 : Nat))] ∧
        str2c "bbbbbbbbbbbbbbbbbbbbbbbbbbbbbbbb" ≠ str2c "aaaaaaaaaaaaaaaaaaaaaaaaaaaaaaaa") ∧
    clearCacheAll
      [(mkFullKey (str2c "aaaaaaaaaaaaaaaaaaaaaaaaaaaaaaaa") (str2c "excel_advanced_processed"), (1 : Nat)),
       (mkFullKey (str2c "bbbbbbbbbbbbbbbbbbbbbbbbbbbbbbbb") (str2c "excel_advanced_processed"), 2)]
      [(mkFullKey (str2c "bbbbbbbbbbbbbbbbbbbbbbbbbbbbbbbb") (str2c "excel_advanced_processed"), (20 : Nat))] =
      ([], []) :=
  clear_cache_exact_frame _ _ _ _ _ _ _ (by decide) (by decide) (by decide)

/-! ## String-rewriting lemmas for `normalize_sku` (C4, C5) -/

/-- C4 counterexample: `normalize_sku` is not idempotent.  On `"A R R B"` the
first pass rewrites only the first `" R "` (Python `str.replace` is leftmost
non-overlapping, and the second occurrence overlaps the consumed text), giving
`"A L/R R B"`; a second pass then rewrites the residual `" R "` as well. -/
theorem normalize_sku_not_idempotent :
    normalize_sku (normalize_sku (str2c "A R R B")) ≠ normalize_sku (str2c "A R R B") := by
  decide

/-- C5 counterexample: base-code extraction does not commute with
normalization on raw input.  `base_code("b24")` falls back to `"b24"` (the
pattern `[A-Z]{1,3}` does not match lower case), while
`base_code(normalize("b24")) = base_code("B24") = "B24"`. -/
theorem base_code_not_stable :
    baseCodeOf (normalize_sku (str2c "b24")) ≠ baseCodeOf (str2c "b24") := by
  decide

theorem isPre_false_of_isSub_false {pat u : Str} (h : isSub pat u = false) :
    isPre pat u = false := by
  cases u with
  | nil => simpa [isSub] using h
  | cons c cs => simp only [isSub, Bool.or_eq_false_iff] at h; exact h.1

theorem isSub_tail_false {pat : Str} {c : Nat} {cs : Str}
    (h : isSub pat (c :: cs) = false) : isSub pat cs = false := by
  simp only [isSub, Bool.or_eq_false_iff] at h; exact h.2

theorem replF_id (pat rep : Str) : ∀ n u, isSub pat u = false →
    pyReplaceF pat rep n u = u := by
  intro n
  induction n with
  | zero => intro u _; rfl
  | succ n ih =>
    intro u h
    cases u with
    | nil => rfl
    | cons c rest =>
      have hpre := isPre_false_of_isSub_false h
      have hcond : ¬ (pat ≠ [] ∧ isPre pat (c :: rest)) := by
        rintro ⟨-, hp⟩; rw [hpre] at hp; exact Bool.false_ne_true hp
      simp only [pyReplaceF, if_neg hcond]
      rw [ih rest (isSub_tail_false h)]

theorem upChar_idem (c : Nat) : upChar (upChar c) = upChar c := by
  by_cases h : 97 ≤ c ∧ c ≤ 122
  · have h1 : upChar c = c - 32 := if_pos h
    rw [h1]
    have h2 : ¬ (97 ≤ c - 32 ∧ c - 32 ≤ 122) := by omega
    exact if_neg h2
  · have h1 : upChar c = c := if_neg h
    rw [h1]; exact h1

theorem map_fix {f : Nat → Nat} : ∀ u : Str, (∀ c ∈ u, f c = c) → u.map f = u
  | [], _ => rfl
  | c :: cs, h => by
    simp only [List.map_cons]
    rw [h c (List.mem_cons_self c cs), map_fix cs (fun d hd => h d (List.mem_cons_of_mem _ hd))]

theorem mem_replaceF (pat rep : Str) : ∀ n u c, c ∈ pyReplaceF pat rep n u →
    c ∈ u ∨ c ∈ rep := by
  intro n
  induction n with
  | zero => intro u c h; exact Or.inl h
  | succ n ih =>
    intro u c h
    cases u with
    | nil => exact Or.inl h
    | cons a rest =>
      by_cases hc : pat ≠ [] ∧ isPre pat (a :: rest)
      · rw [pyReplaceF, if_pos hc] at h
        rcases List.mem_append.mp h with h1 | h2
        · exact Or.inr h1
        · rcases ih _ c h2 with h3 | h3
          · exact Or.inl (List.drop_subset _ _ h3)
          · exact Or.inr h3
      · rw [pyReplaceF, if_neg hc] at h
        rcases List.mem_cons.mp h with h1 | h2
        · exact Or.inl (h1 ▸ List.mem_cons_self a rest)
        · rcases ih _ c h2 with h3 | h3
          · exact Or.inl (List.mem_cons_of_mem _ h3)
          · exact Or.inr h3

theorem mem_splitF_words : ∀ n s w, w ∈ pySplitF n s →
    w ≠ [] ∧ ∀ c ∈ w, c ∈ s ∧ isSpc c = false := by
  intro n
  induction n with
  | zero => intro s w h; exact absurd h (List.not_mem_nil w)
  | succ n ih =>
    intro s w h
    cases s with
    | nil => exact absurd h (List.not_mem_nil w)
    | cons a rest =>
      by_cases ha : isSpc a
      · rw [pySplitF, if_pos ha] at h
        obtain ⟨hne, hall⟩ := ih rest w h
        exact ⟨hne, fun c hc => ⟨List.mem_cons_of_mem _ (hall c hc).1, (hall c hc).2⟩⟩
      · rw [pySplitF, if_neg ha] at h
        rcases List.mem_cons.mp h with h1 | h2
        · subst h1
          refine ⟨by simp, fun c hc => ?_⟩
          rcases List.mem_cons.mp hc with h3 | h4
          · subst h3; exact ⟨List.mem_cons_self _ _, Bool.eq_false_iff.mpr ha⟩
          · have hp := List.mem_takeWhile_imp h4
            simp only [Bool.not_eq_true'] at hp
            refine ⟨List.mem_cons_of_mem _ ?_, hp⟩
            exact List.IsPrefix.subset (List.takeWhile_prefix _) h4
        · obtain ⟨hne, hall⟩ := ih _ w h2
          refine ⟨hne, fun c hc => ?_⟩
          exact ⟨List.mem_cons_of_mem _ ((List.dropWhile_suffix _).subset (hall c hc).1),
            (hall c hc).2⟩

theorem mem_joinSpace : ∀ ws (c : Nat), c ∈ joinSpace ws →
    (∃ w ∈ ws, c ∈ w) ∨ c = 32
  | [], c, h => absurd h (List.not_mem_nil c)
  | [w], c, h => Or.inl ⟨w, List.mem_cons_self _ _, h⟩
  | w :: w2 :: ws, c, h => by
    rcases List.mem_append.mp h with h1 | h2
    · exact Or.inl ⟨w, List.mem_cons_self _ _, h1⟩
    · rcases List.mem_cons.mp h2 with h3 | h4
      · exact Or.inr h3
      · rcases mem_joinSpace (w2 :: ws) c h4 with ⟨w', hw', hc⟩ | h5
        · exact Or.inl ⟨w', List.mem_cons_of_mem _ hw', hc⟩
        · exact Or.inr h5

theorem mem_collapse (s : Str) (c : Nat) (h : c ∈ collapse s) :
    (c ∈ s ∧ isSpc c = false) ∨ c = 32 := by
  rcases mem_joinSpace _ c h with ⟨w, hw, hc⟩ | h32
  · exact Or.inl ((mem_splitF_words _ _ _ hw).2 c hc)
  · exact Or.inr h32

theorem upChar_fix_of_lt {c : Nat} (h : c < 97) : upChar c = c :=
  if_neg (by omega)

theorem upFixed_normalize (s : Str) : ∀ c ∈ normalize_sku s, upChar c = c := by
  intro c h
  have hrep : ∀ c, c ∈ lrRep ∨ c ∈ lrShort → upChar c = c := by
    intro d hd
    rcases hd with hd | hd <;> simp only [lrRep, lrShort] at hd <;>
      rcases List.mem_cons.mp hd with h | h <;> first
        | (exact upChar_fix_of_lt (by omega))
        | (simp at h; rcases h with h | h | h | h <;> exact upChar_fix_of_lt (by omega))
  rcases mem_replaceF _ _ _ _ c h with h2 | h2
  · rcases mem_replaceF _ _ _ _ c h2 with h3 | h3
    · rcases mem_replaceF _ _ _ _ c h3 with h4 | h4
      · rcases mem_collapse _ c h4 with ⟨h5, -⟩ | h5
        · obtain ⟨d, -, rfl⟩ := List.mem_map.mp h5
          exact upChar_idem d
        · subst h5; exact upChar_fix_of_lt (by omega)
      · exact hrep c (Or.inl h4)
    · exact hrep c (Or.inl h3)
  · exact hrep c (Or.inr h2)

theorem pyUpper_normalize (s : Str) : pyUpper (normalize_sku s) = normalize_sku s :=
  map_fix _ (upFixed_normalize s)

theorem pySplitF_nil : ∀ n, pySplitF n [] = [] := by
  intro n; cases n <;> rfl

theorem pySplitF_fuel : ∀ n m s, s.length ≤ n → s.length ≤ m →
    pySplitF n s = pySplitF m s := by
  intro n
  induction n with
  | zero =>
    intro m s hn _
    have : s = [] := List.length_eq_zero.mp (Nat.le_zero.mp hn)
    subst this; rw [pySplitF_nil, pySplitF_nil]
  | succ n ih =>
    intro m s hn hm
    cases s with
    | nil => rw [pySplitF_nil, pySplitF_nil]
    | cons c rest =>
      cases m with
      | zero => simp at hm
      | succ m =>
        rw [pySplitF, pySplitF]
        by_cases hc : isSpc c
        · rw [if_pos hc, if_pos hc]
          exact ih m rest (by simpa using hn) (by simpa using hm)
        · rw [if_neg hc, if_neg hc]
          have hlen : (rest.dropWhile (fun d => !isSpc d)).length ≤ rest.length :=
            (List.dropWhile_suffix _).sublist.length_le
          rw [ih m _ (by simp at hn; omega) (by simp at hm; omega)]

theorem dropWhile_head_not (p : Nat → Bool) : ∀ (l : Str) (b : Nat) (B : Str),
    l.dropWhile p = b :: B → p b = false := by
  intro l
  induction l with
  | nil => intro b B h; simp at h
  | cons c t ih =>
    intro b B h
    rw [List.dropWhile_cons] at h
    by_cases hc : p c
    · rw [if_pos hc] at h; exact ih b B h
    · rw [if_neg hc] at h
      injection h with h1 h2
      subst h1
      exact Bool.eq_false_iff.mpr hc

theorem getLast?_append_right (pre l : Str) (h : l ≠ []) :
    (pre ++ l).getLast? = l.getLast? := by
  rw [List.getLast?_append]
  cases hx : l.getLast? with
  | none => exact absurd (List.getLast?_eq_none_iff.mp hx) h
  | some x => rfl

theorem collapse_fix : ∀ N (u : Str), u.length ≤ N → colld u → collapse u = u := by
  intro N
  induction N with
  | zero =>
    intro u hu _
    have : u = [] := List.length_eq_zero.mp (Nat.le_zero.mp hu)
    subst this; rfl
  | succ N ih =>
    intro u hu hc
    obtain ⟨hchars, hchain, hhead, hlast⟩ := hc
    cases u with
    | nil => rfl
    | cons c rest =>
      have hc0 : isSpc c = false := hhead c rfl
      obtain ⟨A, hA⟩ : ∃ A, rest.takeWhile (fun d => !isSpc d) = A := ⟨_, rfl⟩
      obtain ⟨B, hB⟩ : ∃ B, rest.dropWhile (fun d => !isSpc d) = B := ⟨_, rfl⟩
      have hsplit1 : pySplit (c :: rest) =
          (c :: A) :: pySplitF rest.length B := by
        show pySplitF (rest.length + 1) (c :: rest) = _
        rw [pySplitF, if_neg (by simp [hc0]), hA, hB]
      have hrest : A ++ B = rest := by
        rw [← hA, ← hB]; exact List.takeWhile_append_dropWhile _ _
      cases hBc : B with
      | nil =>
        have hcol : collapse (c :: rest) = c :: A := by
          rw [collapse, hsplit1, hBc, pySplitF_nil]; rfl
        rw [hcol]
        rw [hBc, List.append_nil] at hrest
        rw [hrest]
      | cons b B' =>
        have hb : isSpc b = true := by
          have h1 := dropWhile_head_not (fun d => !isSpc d) rest b B' (by rw [hB, hBc])
          simpa using h1
        cases hB'c : B' with
        | nil =>
          exfalso
          subst hB'c
          subst hBc
          have hu2 : c :: rest = (c :: A) ++ [b] := by rw [← hrest]; rfl
          have hgl : (c :: rest).getLast? = some b := by
            rw [hu2]
            exact getLast?_append_right _ _ (by simp)
          rw [hlast b hgl] at hb
          exact Bool.false_ne_true hb
        | cons b2 t =>
          subst hB'c
          subst hBc
          have hu2 : c :: rest = ((c :: A) ++ [b]) ++ (b2 :: t) := by
            rw [← hrest]; simp
          have hb32 : b = 32 := by
            refine hchars b ?_ hb
            rw [hu2]; simp
          have hchainu : List.Chain' spcR (((c :: A) ++ [b]) ++ (b2 :: t)) := by
            rw [← hu2]; exact hchain
          obtain ⟨-, hch2, hbd⟩ := List.chain'_append.mp hchainu
          have hglb : ((c :: A) ++ [b]).getLast? = some b :=
            getLast?_append_right _ _ (by simp)
          have hRb : spcR b b2 := hbd b hglb b2 rfl
          have hb2 : isSpc b2 = false := hRb.resolve_left (by simp [hb])
          have hlen1 : rest.length = A.length + t.length + 2 := by
            rw [← hrest]; simp; omega
          have hsplit2 : pySplitF rest.length (b :: b2 :: t) = pySplit (b2 :: t) := by
            have hf : pySplitF rest.length (b :: b2 :: t) =
                pySplitF (t.length + 1 + 1) (b :: b2 :: t) := by
              refine pySplitF_fuel _ _ _ ?_ ?_ <;> (simp; try omega)
            rw [hf, pySplitF, if_pos hb]
            rfl
          have hcolld2 : colld (b2 :: t) := by
            refine ⟨fun d hd' hds => hchars d ?_ hds, hch2, ?_, ?_⟩
            · rw [hu2]; exact List.mem_append_right _ hd'
            · intro d hd'; injection hd' with h1; subst h1; exact hb2
            · intro d hd'
              refine hlast d ?_
              rw [hu2, getLast?_append_right _ _ (by simp)]
              exact hd'
          have hcol2 : collapse (b2 :: t) = b2 :: t := by
            refine ih (b2 :: t) ?_ hcolld2
            simp only [List.length_cons] at hu ⊢
            omega
          have hsp : ∃ w1 ws, pySplit (b2 :: t) = w1 :: ws := by
            refine ⟨b2 :: t.takeWhile (fun d => !isSpc d),
              pySplitF t.length (t.dropWhile (fun d => !isSpc d)), ?_⟩
            show pySplitF (t.length + 1) (b2 :: t) = _
            rw [pySplitF, if_neg (by simp [hb2])]
          obtain ⟨w1, ws, hws⟩ := hsp
          have hjs : joinSpace ((c :: A) :: w1 :: ws) =
              (c :: A) ++ 32 :: joinSpace (w1 :: ws) := rfl
          have hfin : collapse (c :: rest) = (c :: A) ++ 32 :: (b2 :: t) := by
            rw [collapse, hsplit1, hsplit2, hws, hjs, ← hws]
            rw [show joinSpace (pySplit (b2 :: t)) = collapse (b2 :: t) from rfl, hcol2]
          rw [hfin, ← hrest, hb32]
          rfl

theorem chain_spcR_of_nospc : ∀ u : Str, (∀ c ∈ u, isSpc c = false) →
    List.Chain' spcR u := by
  intro u
  induction u with
  | nil => intro _; exact List.chain'_nil
  | cons c t ih =>
    intro h
    refine List.chain'_cons'.mpr ⟨fun y _ => Or.inl (h c (List.mem_cons_self _ _)), ?_⟩
    exact ih (fun d hd => h d (List.mem_cons_of_mem _ hd))

theorem joinSpace_head : ∀ (w : Str) (ws : List Str), w ≠ [] →
    (joinSpace (w :: ws)).head? = w.head? := by
  intro w ws hw
  cases ws with
  | nil => rfl
  | cons w2 ws =>
    cases w with
    | nil => exact absurd rfl hw
    | cons x w' => rfl

theorem joinSpace_ne_nil : ∀ (w : Str) (ws : List Str), w ≠ [] →
    joinSpace (w :: ws) ≠ [] := by
  intro w ws hw
  cases ws with
  | nil => exact hw
  | cons w2 ws =>
    cases w with
    | nil => exact absurd rfl hw
    | cons x w' => simp [joinSpace]

theorem chain_join : ∀ ws : List Str,
    (∀ w ∈ ws, w ≠ [] ∧ ∀ c ∈ w, isSpc c = false) →
    List.Chain' spcR (joinSpace ws)
  | [], _ => List.chain'_nil
  | [w], h => chain_spcR_of_nospc w (h w (List.mem_cons_self _ _)).2
  | w :: w2 :: ws, h => by
    have hw := h w (List.mem_cons_self _ _)
    have hw2 := h w2 (List.mem_cons_of_mem _ (List.mem_cons_self _ _))
    have hrec : List.Chain' spcR (joinSpace (w2 :: ws)) :=
      chain_join (w2 :: ws) (fun v hv => h v (List.mem_cons_of_mem _ hv))
    show List.Chain' spcR (w ++ 32 :: joinSpace (w2 :: ws))
    refine List.chain'_append.mpr ⟨chain_spcR_of_nospc w hw.2, ?_, ?_⟩
    · refine List.chain'_cons'.mpr ⟨?_, hrec⟩
      intro y hy
      rw [joinSpace_head w2 ws hw2.1] at hy
      exact Or.inr (hw2.2 y (List.mem_of_mem_head? hy))
    · intro x hx y hy
      injection hy with hy'
      subst hy'
      exact Or.inl (hw.2 x (List.mem_of_mem_getLast? hx))

theorem joinSpace_last : ∀ ws : List Str, (∀ w ∈ ws, w ≠ []) →
    ∀ c : Nat, (joinSpace ws).getLast? = some c → ∃ w ∈ ws, c ∈ w
  | [], _, c, h => by simp [joinSpace] at h
  | [w], _, c, h => ⟨w, List.mem_cons_self _ _, List.mem_of_mem_getLast? h⟩
  | w :: w2 :: ws, hws, c, h => by
    have hne : joinSpace (w2 :: ws) ≠ [] :=
      joinSpace_ne_nil w2 ws (hws w2 (List.mem_cons_of_mem _ (List.mem_cons_self _ _)))
    have h2 : (w ++ 32 :: joinSpace (w2 :: ws)).getLast? = some c := h
    rw [getLast?_append_right _ _ (by simp)] at h2
    have h3 : ([32] ++ joinSpace (w2 :: ws)).getLast? = some c := h2
    rw [getLast?_append_right _ _ hne] at h3
    obtain ⟨w', hw', hc⟩ := joinSpace_last (w2 :: ws)
      (fun v hv => hws v (List.mem_cons_of_mem _ hv)) c h3
    exact ⟨w', List.mem_cons_of_mem _ hw', hc⟩

theorem colld_collapse (s : Str) : colld (collapse s) := by
  have hwords : ∀ w ∈ pySplit s, w ≠ [] ∧ ∀ c ∈ w, isSpc c = false := by
    intro w hw
    obtain ⟨hne, hall⟩ := mem_splitF_words _ _ _ hw
    exact ⟨hne, fun c hc => (hall c hc).2⟩
  refine ⟨?_, ?_, ?_, ?_⟩
  · intro c hc hspc
    rcases mem_collapse s c hc with ⟨-, hf⟩ | h32
    · rw [hf] at hspc; exact absurd hspc (by simp)
    · exact h32
  · exact chain_join (pySplit s) hwords
  · intro c hc
    unfold collapse at hc
    cases hsp : pySplit s with
    | nil => rw [hsp] at hc; simp [joinSpace] at hc
    | cons w ws =>
      rw [hsp, joinSpace_head w ws (hwords w (hsp ▸ List.mem_cons_self _ _)).1] at hc
      exact (hwords w (hsp ▸ List.mem_cons_self _ _)).2 c (List.mem_of_mem_head? hc)
  · intro c hc
    unfold collapse at hc
    obtain ⟨w, hw, hcw⟩ := joinSpace_last (pySplit s) (fun v hv => (hwords v hv).1) c hc
    exact (hwords w hw).2 c hcw

theorem isPre_append : ∀ p s : Str, isPre p s = true → s = p ++ s.drop p.length := by
  intro p
  induction p with
  | nil => intro s _; rfl
  | cons a p' ih =>
    intro s h
    cases s with
    | nil => simp [isPre] at h
    | cons c cs =>
      simp only [isPre, Bool.and_eq_true, decide_eq_true_eq] at h
      obtain ⟨rfl, h2⟩ := h
      have := ih cs h2
      simp only [List.length_cons, List.drop_succ_cons]
      exact congrArg (a :: ·) this

theorem replaceF_nil {pat rep : Str} (hrne : rep ≠ []) :
    ∀ n u, pyReplaceF pat rep n u = [] → u = [] := by
  intro n u h
  cases n with
  | zero => exact h
  | succ n =>
    cases u with
    | nil => rfl
    | cons c rest =>
      by_cases hc : pat ≠ [] ∧ isPre pat (c :: rest)
      · rw [pyReplaceF, if_pos hc] at h
        exact absurd (List.append_eq_nil.mp h).1 hrne
      · rw [pyReplaceF, if_neg hc] at h
        exact absurd h (by simp)

theorem head?_append_left {w : Str} (l : Str) (h : w ≠ []) :
    (w ++ l).head? = w.head? := by
  cases w with
  | nil => exact absurd rfl h
  | cons x w' => rfl

theorem getLast?_some_of_ne_nil {l : Str} (h : l ≠ []) : ∃ x, l.getLast? = some x := by
  cases hx : l.getLast? with
  | none => exact absurd (List.getLast?_eq_none_iff.mp hx) h
  | some x => exact ⟨x, rfl⟩

theorem colld_replaceF
    (pat rep : Str) (hpne : pat ≠ []) (hrne : rep ≠ [])
    (hrch : List.Chain' spcR rep)
    (hr32 : ∀ c ∈ rep, isSpc c = true → c = 32)
    (hhd : ∀ hp hr : Nat, pat.head? = some hp → rep.head? = some hr →
      isSpc hr = true → isSpc hp = true)
    (hlt : ∀ lp lr : Nat, pat.getLast? = some lp → rep.getLast? = some lr →
      isSpc lr = true → isSpc lp = true) :
    ∀ n u, (∀ c ∈ u, isSpc c = true → c = 32) → List.Chain' spcR u →
      (∀ c, u.getLast? = some c → isSpc c = false) →
      (∀ c ∈ pyReplaceF pat rep n u, isSpc c = true → c = 32) ∧
      List.Chain' spcR (pyReplaceF pat rep n u) ∧
      (∀ c, (pyReplaceF pat rep n u).getLast? = some c → isSpc c = false) ∧
      ((pyReplaceF pat rep n u).head? = u.head? ∨
        (isPre pat u = true ∧ (pyReplaceF pat rep n u).head? = rep.head?)) := by
  obtain ⟨lp, hlp⟩ := getLast?_some_of_ne_nil hpne
  obtain ⟨lr, hlr⟩ := getLast?_some_of_ne_nil hrne
  intro n
  induction n with
  | zero => intro u h1 h2 h3; exact ⟨h1, h2, h3, Or.inl rfl⟩
  | succ n ih =>
    intro u h1 h2 h3
    cases u with
    | nil =>
      refine ⟨by simp [pyReplaceF], by simp [pyReplaceF, List.chain'_nil], ?_, Or.inl rfl⟩
      intro c hc; simp [pyReplaceF] at hc
    | cons c rest =>
      by_cases hcond : pat ≠ [] ∧ isPre pat (c :: rest)
      · -- a match at the head: replace it
        rw [pyReplaceF, if_pos hcond]
        have hdecomp : c :: rest = pat ++ (c :: rest).drop pat.length :=
          isPre_append pat (c :: rest) hcond.2
        obtain ⟨v, hv⟩ : ∃ v, (c :: rest).drop pat.length = v := ⟨_, rfl⟩
        rw [hv] at hdecomp
        have hchsplit := List.chain'_append.mp (hdecomp ▸ h2)
        obtain ⟨-, hchv, hbdu⟩ := hchsplit
        have hvchars : ∀ d ∈ v, isSpc d = true → d = 32 := by
          intro d hd hds
          exact h1 d (by rw [hdecomp]; exact List.mem_append_right _ hd) hds
        have hvlast : ∀ d, v.getLast? = some d → isSpc d = false := by
          intro d hd
          refine h3 d ?_
          have hvne : v ≠ [] := by
            intro hveq; rw [hveq] at hd; simp at hd
          rw [hdecomp, getLast?_append_right _ _ hvne]
          exact hd
        obtain ⟨Rchars, Rchain, Rlast, Rhead⟩ := ih v hvchars hchv hvlast
        rw [hv]
        refine ⟨?_, ?_, ?_, ?_⟩
        · intro d hd hds
          rcases List.mem_append.mp hd with hdr | hdR
          · exact hr32 d hdr hds
          · exact Rchars d hdR hds
        · refine List.chain'_append.mpr ⟨hrch, Rchain, ?_⟩
          intro x hx y hy
          rw [hlr] at hx
          injection hx with hx'
          subst hx'
          by_cases hsx : isSpc lr
          · -- rep ends in a space, so pat does too; whatever follows is non-space
            have hlpspc : isSpc lp = true := hlt lp lr hlp hlr hsx
            rcases Rhead with hR | ⟨hpre2, hR⟩
            · rw [hR] at hy
              have := hbdu lp (by rw [hlp]; rfl) y hy
              rcases this with h' | h'
              · rw [hlpspc] at h'; exact absurd h' (by simp)
              · exact Or.inr h'
            · rw [hR] at hy
              obtain ⟨hp, hhp⟩ : ∃ hp, pat.head? = some hp := by
                cases pat with
                | nil => exact absurd rfl hpne
                | cons a p' => exact ⟨a, rfl⟩
              have hvhead : v.head? = some hp := by
                have hd2 := isPre_append pat v hpre2
                rw [hd2, head?_append_left _ hpne, hhp]
              have hbp := hbdu lp (by rw [hlp]; rfl) hp (by rw [hvhead]; rfl)
              have hhpns : isSpc hp = false := by
                rcases hbp with h' | h'
                · rw [hlpspc] at h'; exact absurd h' (by simp)
                · exact h'
              have hyhr : rep.head? = some y := hy
              by_cases hsy : isSpc y
              · have := hhd hp y hhp hyhr hsy
                rw [this] at hhpns
                exact absurd hhpns (by simp)
              · exact Or.inr (Bool.eq_false_iff.mpr hsy)
          · exact Or.inl (Bool.eq_false_iff.mpr hsx)
        · intro d hd
          by_cases hR : pyReplaceF pat rep n v = []
          · have hveq : v = [] := replaceF_nil hrne n v hR
            rw [hR, List.append_nil] at hd
            rw [hlr] at hd
            injection hd with hd'
            subst hd'
            have hulast : (c :: rest).getLast? = some lp := by
              rw [hdecomp, hveq, List.append_nil]; exact hlp
            have hlpns : isSpc lp = false := h3 lp hulast
            by_cases hsd : isSpc lr
            · rw [hlt lp lr hlp hlr hsd] at hlpns
              exact absurd hlpns (by simp)
            · exact Bool.eq_false_iff.mpr hsd
          · rw [getLast?_append_right _ _ hR] at hd
            exact Rlast d hd
        · refine Or.inr ⟨hcond.2, ?_⟩
          exact head?_append_left _ hrne
      · -- no match at the head: keep the first character
        rw [pyReplaceF, if_neg hcond]
        obtain ⟨hcy, hchrest⟩ := List.chain'_cons'.mp h2
        have hrchars : ∀ d ∈ rest, isSpc d = true → d = 32 :=
          fun d hd hds => h1 d (List.mem_cons_of_mem _ hd) hds
        have hrlast : ∀ d, rest.getLast? = some d → isSpc d = false := by
          intro d hd
          refine h3 d ?_
          have hrne2 : rest ≠ [] := by
            intro hreq; rw [hreq] at hd; simp at hd
          show (c :: rest).getLast? = some d
          rw [show c :: rest = [c] ++ rest from rfl, getLast?_append_right _ _ hrne2]
          exact hd
        obtain ⟨Rchars, Rchain, Rlast, Rhead⟩ := ih rest hrchars hchrest hrlast
        refine ⟨?_, ?_, ?_, Or.inl rfl⟩
        · intro d hd hds
          rcases List.mem_cons.mp hd with hdc | hdR
          · exact h1 d (hdc ▸ List.mem_cons_self _ _) hds
          · exact Rchars d hdR hds
        · refine List.chain'_cons'.mpr ⟨?_, Rchain⟩
          intro y hy
          rcases Rhead with hR | ⟨hpre2, hR⟩
          · rw [hR] at hy
            exact hcy y hy
          · rw [hR] at hy
            by_cases hsc : isSpc c
            · obtain ⟨hp, hhp⟩ : ∃ hp, pat.head? = some hp := by
                cases pat with
                | nil => exact absurd rfl hpne
                | cons a p' => exact ⟨a, rfl⟩
              have hresthead : rest.head? = some hp := by
                have hd2 := isPre_append pat rest hpre2
                rw [hd2, head?_append_left _ hpne, hhp]
              have hhpns : isSpc hp = false := by
                rcases hcy hp (by rw [hresthead]; rfl) with h' | h'
                · rw [hsc] at h'; exact absurd h' (by simp)
                · exact h'
              by_cases hsy : isSpc y
              · rw [hhd hp y hhp hy hsy] at hhpns
                exact absurd hhpns (by simp)
              · exact Or.inr (Bool.eq_false_iff.mpr hsy)
            · exact Or.inl (Bool.eq_false_iff.mpr hsc)
        · intro d hd
          by_cases hR : pyReplaceF pat rep n rest = []
          · have hreq : rest = [] := replaceF_nil hrne n rest hR
            rw [hR] at hd
            injection hd with hd'
            subst hd'
            refine h3 c ?_
            rw [hreq]; rfl
          · rw [show c :: pyReplaceF pat rep n rest = [c] ++ pyReplaceF pat rep n rest from rfl,
              getLast?_append_right _ _ hR] at hd
            exact Rlast d hd

theorem opt_cond_of (o1 o2 : Option Nat) (a b : Nat)
    (h1 : o1 = some a) (h2 : o2 = some b) (himp : isSpc b = true → isSpc a = true) :
    ∀ x y : Nat, o1 = some x → o2 = some y → isSpc y = true → isSpc x = true := by
  intro x y e1 e2 h
  rw [h1] at e1; rw [h2] at e2
  injection e1 with e1'; injection e2 with e2'
  subst e1'; subst e2'
  exact himp h

theorem colld_replace (pat rep : Str) (hpne : pat ≠ []) (hrne : rep ≠ [])
    (hrch : List.Chain' spcR rep)
    (hr32 : ∀ c ∈ rep, isSpc c = true → c = 32)
    (hhd : ∀ hp hr : Nat, pat.head? = some hp → rep.head? = some hr →
      isSpc hr = true → isSpc hp = true)
    (hlt : ∀ lp lr : Nat, pat.getLast? = some lp → rep.getLast? = some lr →
      isSpc lr = true → isSpc lp = true)
    (u : Str) (hu : colld u) : colld (pyReplace pat rep u) := by
  obtain ⟨h1, h2, hh, h3⟩ := hu
  obtain ⟨R1, R2, R3, R4⟩ :=
    colld_replaceF pat rep hpne hrne hrch hr32 hhd hlt u.length u h1 h2 h3
  refine ⟨R1, R2, ?_, R3⟩
  intro c hc
  rcases R4 with hR | ⟨hpre, hR⟩
  · refine hh c ?_
    rw [← hR]; exact hc
  · have hc2 : (pyReplaceF pat rep u.length u).head? = some c := hc
    rw [hR] at hc2
    have hc3 : rep.head? = some c := hc2
    obtain ⟨hp, hhp⟩ : ∃ hp, pat.head? = some hp := by
      cases pat with
      | nil => exact absurd rfl hpne
      | cons a p' => exact ⟨a, rfl⟩
    have huh : u.head? = some hp := by
      rw [isPre_append pat u hpre, head?_append_left _ hpne, hhp]
    have hphns : isSpc hp = false := hh hp huh
    by_cases hsc : isSpc c
    · rw [hhd hp c hhp hc3 hsc] at hphns
      exact absurd hphns (by simp)
    · exact Bool.eq_false_iff.mpr hsc

theorem colld_normalize (s : Str) : colld (normalize_sku s) := by
  have c0 := colld_collapse (pyUpper s)
  have hchainRep : List.Chain' spcR lrRep := by
    simp [lrRep, List.chain'_cons, spcR, isSpc]
  have hchainShort : List.Chain' spcR lrShort := by
    simp [lrShort, List.chain'_cons, spcR, isSpc]
  have c1 := colld_replace lSpc lrRep (by decide) (by decide) hchainRep
    (by decide)
    (opt_cond_of lSpc.head? lrRep.head? 32 32 (by decide) (by decide) (by decide))
    (opt_cond_of lSpc.getLast? lrRep.getLast? 32 32 (by decide) (by decide) (by decide))
    _ c0
  have c2 := colld_replace rSpc lrRep (by decide) (by decide) hchainRep
    (by decide)
    (opt_cond_of rSpc.head? lrRep.head? 32 32 (by decide) (by decide) (by decide))
    (opt_cond_of rSpc.getLast? lrRep.getLast? 32 32 (by decide) (by decide) (by decide))
    _ c1
  have c3 := colld_replace lrrPat lrShort (by decide) (by decide) hchainShort
    (by decide)
    (opt_cond_of lrrPat.head? lrShort.head? 76 76 (by decide) (by decide) (by decide))
    (opt_cond_of lrrPat.getLast? lrShort.getLast? 82 82 (by decide) (by decide) (by decide))
    _ c2
  unfold normalize_sku
  exact c3

theorem collapse_normalize (s : Str) : collapse (normalize_sku s) = normalize_sku s :=
  collapse_fix (normalize_sku s).length _ le_rfl (colld_normalize s)

/-- C4 (amended): `normalize_sku` is idempotent on every string whose
single-pass result contains no residual `" L "`, `" R "` or `"L/R/R"`
occurrence.  (The unconditional claim fails: see
`normalize_sku_not_idempotent`.) -/
theorem normalize_sku_idem_of_noResidual (s : Str)
    (h1 : isSub lSpc (normalize_sku s) = false)
    (h2 : isSub rSpc (normalize_sku s) = false)
    (h3 : isSub lrrPat (normalize_sku s) = false) :
    normalize_sku (normalize_sku s) = normalize_sku s := by
  have e1 : pyUpper (normalize_sku s) = normalize_sku s := pyUpper_normalize s
  have e2 : collapse (normalize_sku s) = normalize_sku s := collapse_normalize s
  show pyReplace lrrPat lrShort
    (pyReplace rSpc lrRep
      (pyReplace lSpc lrRep
        (collapse (pyUpper (normalize_sku s))))) = normalize_sku s
  rw [e1, e2]
  rw [show pyReplace lSpc lrRep (normalize_sku s) = normalize_sku s from
    replF_id _ _ _ _ h1]
  rw [show pyReplace rSpc lrRep (normalize_sku s) = normalize_sku s from
    replF_id _ _ _ _ h2]
  exact replF_id _ _ _ _ h3

/-- Witness for C4 at a concrete input satisfying the no-residual
hypotheses. -/
theorem normalize_sku_idem_witness :
    isSub lSpc (normalize_sku (str2c "b24  butt")) = false ∧
    isSub rSpc (normalize_sku (str2c "b24  butt")) = false ∧
    isSub lrrPat (normalize_sku (str2c "b24  butt")) = false ∧
    normalize_sku (normalize_sku (str2c "b24  butt")) = normalize_sku (str2c "b24  butt") :=
  ⟨by decide, by decide, by decide,
    normalize_sku_idem_of_noResidual _ (by decide) (by decide) (by decide)⟩

theorem takeWhile_drop_decomp (p : Nat → Bool) : ∀ l : Str,
    l.takeWhile p ++ l.drop (l.takeWhile p).length = l := by
  intro l
  induction l with
  | nil => rfl
  | cons c t ih =>
    by_cases hc : p c
    · rw [List.takeWhile_cons, if_pos hc]
      simp only [List.length_cons, List.drop_succ_cons, List.cons_append]
      exact congrArg (c :: ·) ih
    · rw [List.takeWhile_cons, if_neg hc]
      rfl

theorem takeWhile_drop_head (p : Nat → Bool) : ∀ (l : Str) (c : Nat),
    (l.drop (l.takeWhile p).length).head? = some c → p c = false := by
  intro l
  induction l with
  | nil => intro c h; simp at h
  | cons a t ih =>
    intro c h
    by_cases ha : p a
    · rw [List.takeWhile_cons, if_pos ha] at h
      simp only [List.length_cons, List.drop_succ_cons] at h
      exact ih c h
    · rw [List.takeWhile_cons, if_neg ha] at h
      simp only [List.length_nil, List.drop_zero, List.head?_cons] at h
      injection h with h'
      subst h'
      exact Bool.eq_false_iff.mpr ha

theorem takeWhile_append_all (p : Nat → Bool) : ∀ (A t : Str), (∀ a ∈ A, p a = true) →
    (A ++ t).takeWhile p = A ++ t.takeWhile p := by
  intro A
  induction A with
  | nil => intro t _; rfl
  | cons a A' ih =>
    intro t hA
    rw [List.cons_append, List.takeWhile_cons, if_pos (hA a (List.mem_cons_self _ _)),
      List.cons_append]
    exact congrArg (a :: ·) (ih t (fun x hx => hA x (List.mem_cons_of_mem _ hx)))

theorem dropWhile_append_all (p : Nat → Bool) : ∀ (A t : Str), (∀ a ∈ A, p a = true) →
    (A ++ t).dropWhile p = t.dropWhile p := by
  intro A
  induction A with
  | nil => intro t _; rfl
  | cons a A' ih =>
    intro t hA
    rw [List.cons_append, List.dropWhile_cons, if_pos (hA a (List.mem_cons_self _ _))]
    exact ih t (fun x hx => hA x (List.mem_cons_of_mem _ hx))

theorem takeWhile_head_false (p : Nat → Bool) (t : Str)
    (h : ∀ c, t.head? = some c → p c = false) : t.takeWhile p = [] := by
  cases t with
  | nil => rfl
  | cons c t' =>
    rw [List.takeWhile_cons, if_neg]
    rw [h c rfl]
    exact Bool.false_ne_true

theorem takeWhile_head_cases (p : Nat → Bool) (t : Str) :
    (t.takeWhile p).head? = none ∨ (t.takeWhile p).head? = t.head? := by
  cases t with
  | nil => exact Or.inl rfl
  | cons c t' =>
    by_cases hc : p c
    · rw [List.takeWhile_cons, if_pos hc]; exact Or.inr rfl
    · rw [List.takeWhile_cons, if_neg hc]; exact Or.inl rfl

theorem collapse_prefix : ∀ (A t : Str), A ≠ [] → (∀ c ∈ A, isSpc c = false) →
    ∃ w, collapse (A ++ t) = A ++ w ∧
      (w.head? = none ∨ w.head? = some 32 ∨ w.head? = t.head?) := by
  intro A t hne hnospc
  cases A with
  | nil => exact absurd rfl hne
  | cons a A' =>
    have ha : isSpc a = false := hnospc a (List.mem_cons_self _ _)
    have hA' : ∀ c ∈ A', (fun d => !isSpc d) c = true := by
      intro c hc
      simp [hnospc c (List.mem_cons_of_mem _ hc)]
    have hTW : (A' ++ t).takeWhile (fun d => !isSpc d) =
        A' ++ t.takeWhile (fun d => !isSpc d) :=
      takeWhile_append_all _ A' t hA'
    have hDW : (A' ++ t).dropWhile (fun d => !isSpc d) =
        t.dropWhile (fun d => !isSpc d) :=
      dropWhile_append_all _ A' t hA'
    have h1 : pySplit ((a :: A') ++ t) =
        ((a :: A') ++ t.takeWhile (fun d => !isSpc d)) ::
          pySplitF (A' ++ t).length (t.dropWhile (fun d => !isSpc d)) := by
      show pySplitF ((A' ++ t).length + 1) (a :: (A' ++ t)) = _
      rw [pySplitF, if_neg (by simp [ha]), hTW, hDW]
      rfl
    have h2 : pySplitF (A' ++ t).length (t.dropWhile (fun d => !isSpc d)) =
        pySplit (t.dropWhile (fun d => !isSpc d)) := by
      refine pySplitF_fuel _ _ _ ?_ le_rfl
      have hsuf : t.dropWhile (fun d => !isSpc d) <:+ t := List.dropWhile_suffix _
      have := hsuf.sublist.length_le
      simp only [List.length_append]
      omega
    cases hws : pySplit (t.dropWhile (fun d => !isSpc d)) with
    | nil =>
      refine ⟨t.takeWhile (fun d => !isSpc d), ?_, ?_⟩
      · rw [collapse, h1, h2, hws]
        show joinSpace [(a :: A') ++ t.takeWhile (fun d => !isSpc d)] = _
        rfl
      · rcases takeWhile_head_cases (fun d => !isSpc d) t with h | h
        · exact Or.inl h
        · exact Or.inr (Or.inr h)
    | cons w1 ws' =>
      refine ⟨t.takeWhile (fun d => !isSpc d) ++
        32 :: joinSpace (w1 :: ws'), ?_, ?_⟩
      · rw [collapse, h1, h2, hws]
        show ((a :: A') ++ t.takeWhile (fun d => !isSpc d)) ++ 32 :: joinSpace (w1 :: ws') = _
        rw [List.append_assoc]
      · cases htk : t.takeWhile (fun d => !isSpc d) with
        | nil => exact Or.inr (Or.inl rfl)
        | cons c tk' =>
          rcases takeWhile_head_cases (fun d => !isSpc d) t with h | h
          · rw [htk] at h; exact absurd h (by simp)
          · rw [htk] at h
            refine Or.inr (Or.inr ?_)
            rw [← h]
            rfl

theorem replaceF_head (pat rep : Str) (hrne : rep ≠ []) : ∀ (n : Nat) (w : Str),
    (pyReplaceF pat rep n w).head? = w.head? ∨
      (pyReplaceF pat rep n w).head? = rep.head? := by
  intro n w
  cases n with
  | zero => exact Or.inl rfl
  | succ n =>
    cases w with
    | nil => exact Or.inl rfl
    | cons c rest =>
      by_cases hc : pat ≠ [] ∧ isPre pat (c :: rest)
      · rw [pyReplaceF, if_pos hc]
        exact Or.inr (head?_append_left _ hrne)
      · rw [pyReplaceF, if_neg hc]
        exact Or.inl rfl

theorem replace_append_skip1 (p0 : Nat) (pr rep : Str) :
    ∀ (A : Str), (∀ a ∈ A, p0 ≠ a) → ∀ (n : Nat) (t : Str),
      pyReplaceF (p0 :: pr) rep (A.length + n) (A ++ t) =
        A ++ pyReplaceF (p0 :: pr) rep n t := by
  intro A
  induction A with
  | nil => intro _ n t; simp
  | cons a A' ih =>
    intro hA n t
    have hne : p0 ≠ a := hA a (List.mem_cons_self _ _)
    have hfuel : (a :: A').length + n = (A'.length + n) + 1 := by simp; omega
    have hng : ¬((p0 :: pr) ≠ [] ∧ isPre (p0 :: pr) (a :: (A' ++ t))) := by
      rintro ⟨-, hpre⟩
      simp only [isPre, Bool.and_eq_true, decide_eq_true_eq] at hpre
      exact hne hpre.1
    rw [hfuel, List.cons_append, pyReplaceF, if_neg hng]
    rw [ih (fun x hx => hA x (List.mem_cons_of_mem _ hx)) n t]
    rfl

theorem replace_append_skip2 (p0 p1 : Nat) (pr rep : Str) :
    ∀ (A : Str), (∀ a ∈ A, p1 ≠ a) → (∀ la, A.getLast? = some la → la ≠ p0) →
      ∀ (n : Nat) (t : Str),
      pyReplaceF (p0 :: p1 :: pr) rep (A.length + n) (A ++ t) =
        A ++ pyReplaceF (p0 :: p1 :: pr) rep n t := by
  intro A
  induction A with
  | nil => intro _ _ n t; simp
  | cons a A' ih =>
    intro h1 h2 n t
    cases A' with
    | nil =>
      have hne : a ≠ p0 := h2 a rfl
      have hfuel : ([a] : Str).length + n = n + 1 := by simp; omega
      have hng : ¬((p0 :: p1 :: pr) ≠ [] ∧ isPre (p0 :: p1 :: pr) (a :: t)) := by
        rintro ⟨-, hpre⟩
        simp only [isPre, Bool.and_eq_true, decide_eq_true_eq] at hpre
        exact hne hpre.1.symm
      rw [hfuel, List.cons_append, List.nil_append, pyReplaceF, if_neg hng]
      rfl
    | cons a2 A'' =>
      have hne : p1 ≠ a2 := h1 a2 (List.mem_cons_of_mem _ (List.mem_cons_self _ _))
      have hfuel : (a :: a2 :: A'').length + n = ((a2 :: A'').length + n) + 1 := by
        simp; omega
      have hng : ¬((p0 :: p1 :: pr) ≠ [] ∧
          isPre (p0 :: p1 :: pr) (a :: ((a2 :: A'') ++ t))) := by
        rintro ⟨-, hpre⟩
        simp only [List.cons_append, isPre, Bool.and_eq_true, decide_eq_true_eq] at hpre
        exact hne hpre.2.1
      rw [hfuel, List.cons_append, pyReplaceF, if_neg hng]
      rw [ih (fun x hx => h1 x (List.mem_cons_of_mem _ hx))
        (fun la hla => h2 la (by rw [List.getLast?_cons_cons]; exact hla)) n t]
      rfl

theorem upChar_nondig {c : Nat} (h : isDig c = false) : isDig (upChar c) = false := by
  by_cases hc : 97 ≤ c ∧ c ≤ 122
  · rw [upChar, if_pos hc]
    simp [isDig]
    omega
  · rw [upChar, if_neg hc]
    exact h

/-- C5 (amended): base-code extraction commutes with normalization on every
string whose leading shape `[A-Z]{1,3}\d{2,}` already matches: upper-casing
fixes the matched prefix, whitespace collapsing and the three replaces touch
only the tail and never make the character after the digit run a digit, so
the same base code is captured on both sides.  (The unconditional claim
fails: see `base_code_not_stable`.) -/
theorem base_code_stable_of_leadBase (s b : Str) (hs : leadBase s = some b) :
    baseCodeOf (normalize_sku s) = baseCodeOf s := by
  obtain ⟨ls, hls⟩ : ∃ A, s.takeWhile isUpA = A := ⟨_, rfl⟩
  obtain ⟨t0, ht0⟩ : ∃ t0, s.drop ls.length = t0 := ⟨_, rfl⟩
  obtain ⟨ds, hds⟩ : ∃ ds, t0.takeWhile isDig = ds := ⟨_, rfl⟩
  obtain ⟨u, hu⟩ : ∃ u, t0.drop ds.length = u := ⟨_, rfl⟩
  have hs2 := hs
  rw [leadBase] at hs2
  simp only [hls, ht0, hds] at hs2
  split at hs2
  case isFalse => exact absurd hs2 (by simp)
  case isTrue hcond =>
  injection hs2 with hb
  have hlsup : ∀ c ∈ ls, isUpA c = true := by
    rw [← hls]; exact fun c hc => List.mem_takeWhile_imp hc
  have hdsdig : ∀ c ∈ ds, isDig c = true := by
    rw [← hds]; exact fun c hc => List.mem_takeWhile_imp hc
  have hsdec : ls ++ t0 = s := by
    rw [← ht0, ← hls]; exact takeWhile_drop_decomp isUpA s
  have ht0dec : ds ++ u = t0 := by
    rw [← hu, ← hds]; exact takeWhile_drop_decomp isDig t0
  have huhead : ∀ c, u.head? = some c → isDig c = false := by
    rw [← hu, ← hds]; exact takeWhile_drop_head isDig t0
  have hlsfix : ∀ c ∈ ls, upChar c = c := by
    intro c hc
    have := hlsup c hc
    simp only [isUpA, Bool.and_eq_true, decide_eq_true_eq] at this
    exact upChar_fix_of_lt (by omega)
  have hdsfix : ∀ c ∈ ds, upChar c = c := by
    intro c hc
    have := hdsdig c hc
    simp only [isDig, Bool.and_eq_true, decide_eq_true_eq] at this
    exact upChar_fix_of_lt (by omega)
  have hupper : pyUpper s = (ls ++ ds) ++ pyUpper u := by
    rw [show s = ls ++ (ds ++ u) from by rw [← hsdec, ← ht0dec]]
    simp only [pyUpper, List.map_append]
    rw [show List.map upChar ls = ls from map_fix ls hlsfix,
      show List.map upChar ds = ds from map_fix ds hdsfix, List.append_assoc]
  have hlsne : ls ≠ [] := by
    intro h'
    rw [h'] at hcond
    simp at hcond
  have hAne : ls ++ ds ≠ [] := by
    intro hA
    exact hlsne (List.append_eq_nil.mp hA).1
  have hAnospc : ∀ c ∈ ls ++ ds, isSpc c = false := by
    intro c hc
    rcases List.mem_append.mp hc with h' | h'
    · have := hlsup c h'
      simp only [isUpA, Bool.and_eq_true, decide_eq_true_eq] at this
      simp only [isSpc]
      simp only [Bool.or_eq_false_iff, decide_eq_false_iff_not]
      omega
    · have := hdsdig c h'
      simp only [isDig, Bool.and_eq_true, decide_eq_true_eq] at this
      simp only [isSpc]
      simp only [Bool.or_eq_false_iff, decide_eq_false_iff_not]
      omega
  obtain ⟨w, hw, hwhead⟩ := collapse_prefix (ls ++ ds) (pyUpper u) hAne hAnospc
  have hwnd : ∀ c, w.head? = some c → isDig c = false := by
    intro c hc
    rcases hwhead with h' | h' | h'
    · rw [h'] at hc; exact absurd hc (by simp)
    · rw [h'] at hc
      injection hc with hc'
      subst hc'
      decide
    · rw [h'] at hc
      cases hu2 : u with
      | nil => rw [hu2] at hc; simp [pyUpper] at hc
      | cons d u' =>
        rw [hu2] at hc
        simp only [pyUpper, List.map_cons, List.head?_cons] at hc
        injection hc with hc'
        subst hc'
        refine upChar_nondig (huhead d ?_)
        rw [hu2]; rfl
  have h32A : ∀ a ∈ ls ++ ds, (32 : Nat) ≠ a := by
    intro a ha he
    have := hAnospc a ha
    rw [← he] at this
    simp [isSpc] at this
  have st1 : pyReplace lSpc lrRep ((ls ++ ds) ++ w) =
      (ls ++ ds) ++ pyReplace lSpc lrRep w := by
    show pyReplaceF lSpc lrRep ((ls ++ ds) ++ w).length ((ls ++ ds) ++ w) = _
    rw [List.length_append]
    exact replace_append_skip1 32 [76, 32] lrRep (ls ++ ds) h32A w.length w
  have hw1nd : ∀ c, (pyReplace lSpc lrRep w).head? = some c → isDig c = false := by
    intro c hc
    rcases replaceF_head lSpc lrRep (by decide) w.length w with h' | h'
    · rw [show (pyReplace lSpc lrRep w).head? =
        (pyReplaceF lSpc lrRep w.length w).head? from rfl, h'] at hc
      exact hwnd c hc
    · rw [show (pyReplace lSpc lrRep w).head? =
        (pyReplaceF lSpc lrRep w.length w).head? from rfl, h'] at hc
      injection hc with hc'
      subst hc'
      decide
  have st2 : pyReplace rSpc lrRep ((ls ++ ds) ++ pyReplace lSpc lrRep w) =
      (ls ++ ds) ++ pyReplace rSpc lrRep (pyReplace lSpc lrRep w) := by
    show pyReplaceF rSpc lrRep _ _ = _
    rw [List.length_append]
    exact replace_append_skip1 32 [82, 32] lrRep (ls ++ ds) h32A _ _
  have hw2nd : ∀ c, (pyReplace rSpc lrRep (pyReplace lSpc lrRep w)).head? = some c →
      isDig c = false := by
    intro c hc
    rcases replaceF_head rSpc lrRep (by decide)
        (pyReplace lSpc lrRep w).length (pyReplace lSpc lrRep w) with h' | h'
    · rw [show (pyReplace rSpc lrRep (pyReplace lSpc lrRep w)).head? =
        (pyReplaceF rSpc lrRep (pyReplace lSpc lrRep w).length
          (pyReplace lSpc lrRep w)).head? from rfl, h'] at hc
      exact hw1nd c hc
    · rw [show (pyReplace rSpc lrRep (pyReplace lSpc lrRep w)).head? =
        (pyReplaceF rSpc lrRep (pyReplace lSpc lrRep w).length
          (pyReplace lSpc lrRep w)).head? from rfl, h'] at hc
      injection hc with hc'
      subst hc'
      decide
  have h47A : ∀ a ∈ ls ++ ds, (47 : Nat) ≠ a := by
    intro a ha he
    rcases List.mem_append.mp ha with h' | h'
    · have := hlsup a h'
      rw [← he] at this
      simp [isUpA] at this
    · have := hdsdig a h'
      rw [← he] at this
      simp [isDig] at this
  have hdsne : ds ≠ [] := by
    intro h'
    rw [h'] at hcond
    simp at hcond
  have hlastA : ∀ la, (ls ++ ds).getLast? = some la → la ≠ 76 := by
    intro la hla he
    rw [getLast?_append_right ls ds hdsne] at hla
    have := hdsdig la (List.mem_of_mem_getLast? hla)
    rw [he] at this
    simp [isDig] at this
  have st3 : pyReplace lrrPat lrShort
      ((ls ++ ds) ++ pyReplace rSpc lrRep (pyReplace lSpc lrRep w)) =
      (ls ++ ds) ++ pyReplace lrrPat lrShort
        (pyReplace rSpc lrRep (pyReplace lSpc lrRep w)) := by
    show pyReplaceF lrrPat lrShort _ _ = _
    rw [List.length_append]
    exact replace_append_skip2 76 47 [82, 47, 82] lrShort (ls ++ ds) h47A hlastA _ _
  have hw3nd : ∀ c, (pyReplace lrrPat lrShort
      (pyReplace rSpc lrRep (pyReplace lSpc lrRep w))).head? = some c →
      isDig c = false := by
    intro c hc
    rcases replaceF_head lrrPat lrShort (by decide)
        (pyReplace rSpc lrRep (pyReplace lSpc lrRep w)).length
        (pyReplace rSpc lrRep (pyReplace lSpc lrRep w)) with h' | h'
    · rw [show (pyReplace lrrPat lrShort
        (pyReplace rSpc lrRep (pyReplace lSpc lrRep w))).head? =
        (pyReplaceF lrrPat lrShort
          (pyReplace rSpc lrRep (pyReplace lSpc lrRep w)).length
          (pyReplace rSpc lrRep (pyReplace lSpc lrRep w))).head? from rfl, h'] at hc
      exact hw2nd c hc
    · rw [show (pyReplace lrrPat lrShort
        (pyReplace rSpc lrRep (pyReplace lSpc lrRep w))).head? =
        (pyReplaceF lrrPat lrShort
          (pyReplace rSpc lrRep (pyReplace lSpc lrRep w)).length
          (pyReplace rSpc lrRep (pyReplace lSpc lrRep w))).head? from rfl, h'] at hc
      injection hc with hc'
      subst hc'
      decide
  obtain ⟨w3, hw3⟩ : ∃ w3, pyReplace lrrPat lrShort
      (pyReplace rSpc lrRep (pyReplace lSpc lrRep w)) = w3 := ⟨_, rfl⟩
  rw [hw3] at hw3nd
  have hns : normalize_sku s = (ls ++ ds) ++ w3 := by
    rw [normalize_sku, hupper, hw, st1, st2, st3, hw3]
  have htw1 : (ls ++ (ds ++ w3)).takeWhile isUpA = ls := by
    rw [takeWhile_append_all isUpA ls _ hlsup]
    have hz : (ds ++ w3).takeWhile isUpA = [] := by
      apply takeWhile_head_false
      intro c hc
      cases hds2 : ds with
      | nil => exact absurd hds2 hdsne
      | cons d0 ds' =>
        rw [hds2, List.cons_append, List.head?_cons] at hc
        injection hc with hc'
        subst hc'
        have := hdsdig d0 (by rw [hds2]; exact List.mem_cons_self _ _)
        simp only [isDig, Bool.and_eq_true, decide_eq_true_eq] at this
        simp only [isUpA, Bool.and_eq_false_iff]
        simp only [decide_eq_false_iff_not]
        omega
    rw [hz, List.append_nil]
  have hdrop : (ls ++ (ds ++ w3)).drop ls.length = ds ++ w3 := List.drop_left _ _
  have htw2 : (ds ++ w3).takeWhile isDig = ds := by
    rw [takeWhile_append_all isDig ds _ hdsdig]
    rw [takeWhile_head_false isDig w3 hw3nd, List.append_nil]
  have hlead : leadBase ((ls ++ ds) ++ w3) = some (ls ++ ds) := by
    rw [List.append_assoc, leadBase]
    simp only [htw1, hdrop, htw2]
    rw [if_pos hcond]
  simp only [baseCodeOf]
  rw [hs, hns, hlead, hb]
  rfl

/-- Witness for C5 at a concrete catalog-style code. -/
theorem base_code_stable_witness :
    leadBase (str2c "W3030 BUTT") = some (str2c "W3030") ∧
    baseCodeOf (normalize_sku (str2c "W3030 BUTT")) = baseCodeOf (str2c "W3030 BUTT") :=
  ⟨by decide, base_code_stable_of_leadBase (str2c "W3030 BUTT") (str2c "W3030") (by decide)⟩
